import Mathlib

/- Verification development for the LiteNotes single-file notes application.
   The embedding follows the third (feature-complete) variant in the source,
   which owns the trash lifecycle, the front-matter parser, the markdown
   renderer and the backlink computation.  JavaScript strings are modelled as
   lists of characters; JavaScript objects used as string-keyed maps are
   modelled as insertion-ordered association lists. -/

namespace LiteNotes

/-- JavaScript strings, modelled as lists of characters. -/
abbrev Str := List Char

/-- Whitespace test used by the embedding of String.prototype.trim and of
    regex whitespace classes (ASCII subset, which covers every character the
    claims exercise). -/
def isWS (c : Char) : Bool :=
  c = ' ' || c = '\t' || c = '\n' || c = '\r' || c = '\x0b' || c = '\x0c'

/-- Drop trailing whitespace (the second half of String.prototype.trim). -/
def dropTrailWS (s : Str) : Str := (s.reverse.dropWhile isWS).reverse

/-- Embedding of String.prototype.trim. -/
def trimStr (s : Str) : Str := dropTrailWS (s.dropWhile isWS)

/-- Boolean prefix test, the heart of String.prototype.startsWith and of the
    substring searches performed by indexOf and by literal regex tests. -/
def strStarts : Str → Str → Bool
  | [], _ => true
  | _ :: _, [] => false
  | c :: p, d :: s => c = d && strStarts p s

/-- Position of the first occurrence of pat in s, if any (String.indexOf with
    fromIndex 0). -/
def findSub (pat : Str) : Str → Option Nat
  | [] => if strStarts pat [] then some 0 else none
  | c :: rest =>
      if strStarts pat (c :: rest) then some 0 else (findSub pat rest).map (· + 1)

/-- Embedding of String.indexOf(pat, i): first occurrence at an index ≥ i. -/
def findFrom (pat s : Str) (i : Nat) : Option Nat :=
  (findSub pat (s.drop i)).map (· + i)

/-- Embedding of the literal-substring regex test (the source escapes every
    regex metacharacter before building such regexes). -/
def containsSub (pat : Str) : Str → Bool
  | [] => strStarts pat []
  | c :: rest => strStarts pat (c :: rest) || containsSub pat rest

mutual
/-- Worker for splitting on runs of newlines, as String.split with a one-or-
    more-newlines regex does: cur holds the current chunk reversed. -/
def srGo (cur : Str) : Str → List Str
  | [] => [cur.reverse]
  | c :: rest => if c = '\n' then cur.reverse :: srSkip rest else srGo (c :: cur) rest

/-- After a newline was seen: skip the rest of the newline run, then resume. -/
def srSkip : Str → List Str
  | [] => [[]]
  | c :: rest => if c = '\n' then srSkip rest else srGo [c] rest
end

/-- Embedding of s.split on a one-or-more-newlines regex. -/
def splitRuns (s : Str) : List Str := srGo [] s

/-- Embedding of matching one header line against the key-colon-value regex
    of the source: the key is everything before the first colon (nonempty),
    the value is the remainder; both sides are trimmed.  Lines without a colon
    or with an empty key do not match and are ignored by the caller. -/
def parsePropLine (line : Str) : Option (Str × Str) :=
  let k := line.takeWhile (· ≠ ':')
  match line.dropWhile (· ≠ ':') with
  | [] => none
  | _ :: v => if k = [] then none else some (trimStr k, trimStr v)

/-- JavaScript object property assignment obj[k] = v on an insertion-ordered
    map: update in place when the key exists, append otherwise. -/
def objSet : List (Str × α) → Str → α → List (Str × α)
  | [], k, v => [(k, v)]
  | (k', v') :: rest, k, v =>
      if k' = k then (k, v) :: rest else (k', v') :: objSet rest k v

/-- JavaScript delete obj[k]. -/
def objDel (m : List (Str × α)) (k : Str) : List (Str × α) :=
  m.filter (fun p => p.1 ≠ k)

/-- JavaScript property lookup obj[k] (undefined becomes none). -/
def lookupKey : List (Str × α) → Str → Option α
  | [], _ => none
  | (k', v) :: rest, k => if k' = k then some v else lookupKey rest k

/-- One iteration of the forEach loop of parseFrontMatter: a line matching
    the property pattern is assigned into the accumulator, any other line is
    ignored. -/
def propStep (acc : List (Str × Str)) (l : Str) : List (Str × Str) :=
  match parsePropLine l with
  | some (k, v) => objSet acc k v
  | none => acc

/-- Accumulation of the header lines into the props object, mirroring the
    forEach loop of parseFrontMatter. -/
def buildProps (lines : List Str) : List (Str × Str) :=
  lines.foldl propStep []

/-- Embedding of s.replace of one leading newline by nothing. -/
def stripLeadNL : Str → Str
  | '\n' :: rest => rest
  | s => s

/-- Result of parseFrontMatter: the ordered property map and the prose body. -/
structure FrontMatter where
  props : List (Str × Str)
  body : Str
deriving DecidableEq

/-- The found-delimiter branch of parseFrontMatter: the trimmed slice (4, e)
    is the header, the text after index e + 4 minus one leading newline is the
    body, and each header line matching the key-colon-value pattern becomes a
    property. -/
def parseWith (text : Str) (e : Nat) : FrontMatter :=
  ⟨buildProps (splitRuns (trimStr ((text.drop 4).take (e - 4)))),
   stripLeadNL (text.drop (e + 4))⟩

/-- Embedding of parseFrontMatter from the source: if the text starts with a
    dash-dash-dash-newline line, search for the substring newline-dash-dash-dash
    from index 4; parse the header and body at the found index, or return no
    properties and the whole text as body when the search fails. -/
def parseFrontMatter (text : Str) : FrontMatter :=
  if text.take 4 = ("---\n".data) then
    match findFrom ("\n---".data) text 4 with
    | some e => parseWith text e
    | none => ⟨[], text⟩
  else ⟨[], text⟩

example :
    parseFrontMatter ("---\npriority: high\n---\nHi [[Bob]]".data) =
      ⟨[("priority".data, "high".data)], "Hi [[Bob]]".data⟩ := by decide

example :
    parseFrontMatter ("no front matter".data) = ⟨[], "no front matter".data⟩ := by
  decide

/-- Active note record: raw content plus the updated timestamp. -/
structure Note where
  content : Str
  updated : Nat
deriving DecidableEq

/-- Trash entry: snapshot of a soft-deleted note. -/
structure TrashEntry where
  title : Str
  content : Str
  deletedAt : Nat
deriving DecidableEq

/-- Application state of the notes view: the insertion-ordered map of active
    notes, the trash list (most recent first) and the current selection. -/
structure AppState where
  notes : List (Str × Note)
  trash : List TrashEntry
  current : Str
deriving DecidableEq

/-- Outcome tag recording which branch of renameNote ran: early return,
    title-exists alert, or the actual rename. -/
inductive RenameOutcome where
  | noop
  | titleExists
  | renamed
deriving DecidableEq

/-- Embedding of renameNote from the source (the old title is the current
    selection): return unchanged when the new title is empty or equal to the
    current one, alert and return unchanged when the new title is an existing
    key, otherwise move the record (content and timestamp untouched) under the
    new key, delete the old key, and select the new title.  When the current
    title is not an active note the source would store an undefined-valued
    property under the new key, which an association list of records cannot
    hold; that branch only deletes the stale key here, and no claim below
    exercises it. -/
def renameNote (s : AppState) (nt : Str) : AppState × RenameOutcome :=
  if nt = [] ∨ nt = s.current then (s, .noop)
  else if (lookupKey s.notes nt).isSome then (s, .titleExists)
  else
    match lookupKey s.notes s.current with
    | some n =>
        ({ s with notes := objDel (objSet s.notes nt n) s.current, current := nt },
         .renamed)
    | none => ({ s with notes := objDel s.notes s.current, current := nt }, .renamed)

/-- Element removal by position, as the source writes it:
    array.filter((_, i) => i !== idx). -/
def removeIdx (l : List α) (idx : Nat) : List α :=
  ((l.enum.filter (fun p => p.1 ≠ idx)).map (fun p => p.2))

/-- Embedding of softDeleteNote after an accepted confirmation: snapshot the
    title with its content (an absent note snapshots empty content) into a
    trash entry prepended to the trash, delete the active record, and if the
    deleted title was selected, select the first remaining key of the stale
    notes object, with the Home fallback also covering a falsy (empty) key. -/
def softDeleteNote (s : AppState) (title : Str) (now : Nat) : AppState :=
  let entry : TrashEntry :=
    ⟨title,
     (match lookupKey s.notes title with
      | some n => n.content
      | none => []),
     now⟩
  let notes := objDel s.notes title
  let current :=
    if title = s.current then
      match ((s.notes.map (fun p => p.1)).filter (fun t => t ≠ title)).head? with
      | none => "Home".data
      | some t => if t = [] then "Home".data else t
    else s.current
  ⟨notes, entry :: s.trash, current⟩

/-- Embedding of restoreTrash: read the trash entry at idx (the source throws
    on an out-of-bounds index, hence the Option), choose the restored title --
    the original title, suffixed when that title is currently active -- store
    the snapshot content under it with a fresh timestamp, drop the entry from
    the trash, and select the restored title. -/
def restoreTrash (s : AppState) (idx : Nat) (now : Nat) : Option AppState :=
  match s.trash[idx]? with
  | none => none
  | some item =>
      let t :=
        if (lookupKey s.notes item.title).isSome then
          item.title ++ (" (restored)".data)
        else item.title
      some
        ⟨objSet s.notes t ⟨item.content, now⟩,
         removeIdx s.trash idx,
         t⟩

/-- Embedding of deleteForever after an accepted confirmation. -/
def deleteForever (s : AppState) (idx : Nat) : AppState :=
  { s with trash := removeIdx s.trash idx }

/-- Embedding of emptyTrash after an accepted confirmation. -/
def emptyTrash (s : AppState) : AppState :=
  { s with trash := [] }

/-- Embedding of the preview click handler for wiki-link anchors: read the
    data-title attribute verbatim, create an empty note under that exact title
    when absent, and select it. -/
def handlerOpen (s : AppState) (title : Str) (now : Nat) : AppState :=
  let notes :=
    match lookupKey s.notes title with
    | none => objSet s.notes title ⟨[], now⟩
    | some _ => s.notes
  { s with notes := notes, current := title }

/-- Escaping of one character, as the ampersand-less-greater replacement of
    renderMarkdown does it. -/
def escChar (c : Char) : Str :=
  if c = '&' then "&amp;".data
  else if c = '<' then "&lt;".data
  else if c = '>' then "&gt;".data
  else [c]

/-- Embedding of the escape step of renderMarkdown. -/
def esc (s : Str) : Str := (s.map escChar).flatten

/-- Global-replace scanner for the bold pattern (two stars, one or more
    non-star characters, two stars), fuelled by the input length so that every
    call is structural; a fuel of at least the input length is always enough
    because each step consumes at least one character. -/
def replaceBoldGo : Nat → Str → Str
  | 0, s => s
  | _ + 1, [] => []
  | fuel + 1, c :: rest =>
      if c = '*' then
        match rest with
        | '*' :: r2 =>
            let inner := r2.takeWhile (fun d => d ≠ '*')
            let after := r2.drop inner.length
            if inner ≠ [] ∧ after.take 2 = ['*', '*'] then
              "<strong>".data ++ inner ++ "</strong>".data ++
                replaceBoldGo fuel (after.drop 2)
            else c :: replaceBoldGo fuel rest
        | _ => c :: replaceBoldGo fuel rest
      else c :: replaceBoldGo fuel rest

/-- Embedding of the bold replacement of renderMarkdown. -/
def replaceBold (s : Str) : Str := replaceBoldGo s.length s

/-- Global-replace scanner for the italic pattern (star, one or more non-star
    characters, star). -/
def replaceItalicGo : Nat → Str → Str
  | 0, s => s
  | _ + 1, [] => []
  | fuel + 1, c :: rest =>
      if c = '*' then
        let inner := rest.takeWhile (fun d => d ≠ '*')
        let after := rest.drop inner.length
        if inner ≠ [] ∧ after.take 1 = ['*'] then
          "<em>".data ++ inner ++ "</em>".data ++ replaceItalicGo fuel (after.drop 1)
        else c :: replaceItalicGo fuel rest
      else c :: replaceItalicGo fuel rest

/-- Embedding of the italic replacement of renderMarkdown. -/
def replaceItalic (s : Str) : Str := replaceItalicGo s.length s

/-- Global-replace scanner for the underline pattern (two underscores, one or
    more non-underscore characters, two underscores). -/
def replaceUnderGo : Nat → Str → Str
  | 0, s => s
  | _ + 1, [] => []
  | fuel + 1, c :: rest =>
      if c = '_' then
        match rest with
        | '_' :: r2 =>
            let inner := r2.takeWhile (fun d => d ≠ '_')
            let after := r2.drop inner.length
            if inner ≠ [] ∧ after.take 2 = ['_', '_'] then
              "<u>".data ++ inner ++ "</u>".data ++ replaceUnderGo fuel (after.drop 2)
            else c :: replaceUnderGo fuel rest
        | _ => c :: replaceUnderGo fuel rest
      else c :: replaceUnderGo fuel rest

/-- Embedding of the underline replacement of renderMarkdown. -/
def replaceUnder (s : Str) : Str := replaceUnderGo s.length s

/-- The anchor markup a wiki-link token is replaced by; the captured group is
    interpolated verbatim, both into the data-title attribute (which the click
    handler reads back) and into the visible text. -/
def wikiAnchor (p1 : Str) : Str :=
  "<a href=\"#\" class=\"wikilink\" data-title=\"".data ++ p1 ++
    "\">[[".data ++ p1 ++ "]]</a>".data

/-- Global-replace scanner for the wiki-link pattern (two open brackets, one
    or more non-close-bracket characters, two close brackets). -/
def replaceWikiGo : Nat → Str → Str
  | 0, s => s
  | _ + 1, [] => []
  | fuel + 1, c :: rest =>
      if c = '[' then
        match rest with
        | '[' :: r2 =>
            let inner := r2.takeWhile (fun d => d ≠ ']')
            let after := r2.drop inner.length
            if inner ≠ [] ∧ after.take 2 = [']', ']'] then
              wikiAnchor inner ++ replaceWikiGo fuel (after.drop 2)
            else c :: replaceWikiGo fuel rest
        | _ => c :: replaceWikiGo fuel rest
      else c :: replaceWikiGo fuel rest

/-- Embedding of the wiki-link replacement of renderMarkdown. -/
def replaceWiki (s : Str) : Str := replaceWikiGo s.length s

/-- Test for a heading prefix of n hash marks followed by at least one
    whitespace character. -/
def isHeading (n : Nat) (line : Str) : Bool :=
  strStarts (List.replicate n '#') line &&
    match (line.drop n).head? with
    | some c => isWS c
    | none => false

/-- Strip a heading prefix: drop the hash marks and every following
    whitespace character (the regex is greedy). -/
def stripHeading (n : Nat) (line : Str) : Str :=
  (line.drop n).dropWhile isWS

/-- Embedding of the per-line body of renderMarkdown: heading lines (level 3
    checked first) escape the stripped text into a heading element; any other
    line is escaped and then rewritten by the bold, italic, underline and
    wiki-link replacements in that order; an empty result becomes a
    non-breaking space paragraph. -/
def renderLine (line : Str) : Str :=
  if isHeading 3 line then "<h3>".data ++ esc (stripHeading 3 line) ++ "</h3>".data
  else if isHeading 2 line then "<h2>".data ++ esc (stripHeading 2 line) ++ "</h2>".data
  else if isHeading 1 line then "<h1>".data ++ esc (stripHeading 1 line) ++ "</h1>".data
  else
    let t := replaceWiki (replaceUnder (replaceItalic (replaceBold (esc line))))
    "<p>".data ++ (if t = [] then "&nbsp;".data ++ "</p>".data else t ++ "</p>".data)

/-- Split into lines at carriage-return-optional newlines, as the split of
    renderMarkdown does. -/
def splitLines : Str → List Str
  | [] => [[]]
  | '\r' :: '\n' :: rest => [] :: splitLines rest
  | '\n' :: rest => [] :: splitLines rest
  | c :: rest =>
      match splitLines rest with
      | [] => [[c]]
      | l :: ls => (c :: l) :: ls

/-- Embedding of renderMarkdown: render every line and join with newlines. -/
def renderMarkdown (src : Str) : Str :=
  match (splitLines src).map renderLine with
  | [] => []
  | l :: ls => ls.foldl (fun acc x => acc ++ '\n' :: x) l

/-- Test for a wiki-link token match starting at the current character. -/
def tokenHead (c : Char) (rest : Str) : Bool :=
  c = '[' &&
    match rest with
    | '[' :: r2 =>
        let inner := r2.takeWhile (fun d => d ≠ ']')
        inner ≠ [] && (r2.drop inner.length).take 2 = [']', ']']
    | _ => false

/-- Test for the wiki-link token pattern anywhere in a string (the first
    backlink filter of the source). -/
def containsToken : Str → Bool
  | [] => false
  | c :: rest => tokenHead c rest || containsToken rest

/-- Embedding of the backlinks computation: among the notes other than the
    current one, keep those whose content contains some wiki-link token and
    also contains the bracketed current title as a literal substring (the
    second regex is built from the regex-escaped title), and list their
    titles. -/
def backlinksOf (notes : List (Str × Note)) (current : Str) : List Str :=
  (((notes.filter (fun p => p.1 ≠ current)).filter
        (fun p => containsToken p.2.content)).filter
      (fun p => containsSub ("[[".data ++ current ++ "]]".data) p.2.content)).map
    (fun p => p.1)

example :
    renderLine ("Hello [[Bob]]".data) =
      ("<p>Hello ".data ++ wikiAnchor ("Bob".data) ++ "</p>".data) := by decide

example : renderLine ("***hi***".data) = "<p><em><strong>hi</strong></em></p>".data := by
  decide

example :
    backlinksOf [("Home".data, ⟨[], 0⟩), ("Project".data, ⟨"Hello [[Home]]".data, 1⟩)]
      ("Home".data) = [("Project".data)] := by decide

/-- Join a list of lines with single newlines, as Array.prototype.join does. -/
def joinLines : List Str → Str
  | [] => []
  | [l] => l
  | l :: l2 :: ls => l ++ '\n' :: joinLines (l2 :: ls)

/-- One serialized property line: key, colon, space, value. -/
def entryLine (p : Str × Str) : Str := p.1 ++ ": ".data ++ p.2

/-- Modelled from the spec: the repository has no serialize function (the
    round-trip property of the spec mentions it without a definition), so it
    is written here from the front-matter format the spec and the source
    placeholders describe: a dash-dash-dash line, one key-colon-space-value
    line per property in order, and a closing dash-dash-dash line. -/
def serialize (props : List (Str × Str)) : Str :=
  "---\n".data ++ joinLines (props.map entryLine) ++ "\n---\n".data

/-- Apply a function to the last element of a list. -/
def mapLast (f : Str → Str) : List Str → List Str
  | [] => []
  | [l] => [f l]
  | l :: l2 :: ls => l :: mapLast f (l2 :: ls)

/-- Fixture: a state with an active note under the original title of the only
    trash entry and another active note already carrying the suffixed title. -/
def cexRestoreState : AppState :=
  ⟨[("Project".data, ⟨"v2".data, 1⟩), ("Project (restored)".data, ⟨"old".data, 2⟩)],
   [⟨"Project".data, "v1".data, 3⟩], "Project".data⟩

/-- Fixture: a one-note state about to be renamed. -/
def cexRenameState : AppState := ⟨[("A".data, ⟨"c".data, 7⟩)], [], "A".data⟩

/-- Fixture: a two-note state used to exercise rename and delete paths. -/
def fixtureState : AppState :=
  ⟨[("Home".data, ⟨"hi [[B]]".data, 1⟩), ("B".data, ⟨[], 2⟩)],
   [⟨"Old".data, "x".data, 3⟩], "Home".data⟩

/-- Fixture: notes exhibiting the divergence between trimmed-body backlink
    semantics and the literal-substring test of the source: the first referrer
    links with inner whitespace, the second only mentions the bracketed title
    inside its front-matter block. -/
def cexBacklinkNotes : List (Str × Note) :=
  [("Y".data, ⟨[], 0⟩),
   ("X1".data, ⟨"[[ Y ]]".data, 1⟩),
   ("X2".data, ⟨"---\np: [[Y]]\n---\nnothing".data, 2⟩)]

/-- strStarts decides prefix decomposition. -/
theorem strStarts_iff {p s : Str} : strStarts p s = true ↔ ∃ t, p ++ t = s := by
  induction p generalizing s with
  | nil => simp [strStarts]
  | cons c p ih =>
    cases s with
    | nil => simp [strStarts]
    | cons d s' =>
      simp only [strStarts, Bool.and_eq_true, decide_eq_true_eq, ih, List.cons_append,
        List.cons.injEq]
      constructor
      · rintro ⟨rfl, t, ht⟩
        exact ⟨t, rfl, ht⟩
      · rintro ⟨t, hd, ht⟩
        exact ⟨hd, t, ht⟩

/-- strStarts accepts a literal prefix. -/
theorem strStarts_self_append (p t : Str) : strStarts p (p ++ t) = true :=
  strStarts_iff.mpr ⟨t, rfl⟩

/-- Unfolding equation for findSub on the empty string. -/
@[simp] theorem findSub_nil (pat : Str) :
    findSub pat [] = if strStarts pat [] then some 0 else none := rfl

/-- Unfolding equation for findSub on a nonempty string. -/
theorem findSub_cons (pat : Str) (c : Char) (rest : Str) :
    findSub pat (c :: rest) =
      if strStarts pat (c :: rest) then some 0
      else (findSub pat rest).map (· + 1) := rfl

/-- findSub finds the first occurrence: if the pattern occurs right after a
    and at no position inside a, the result is the length of a. -/
theorem findSub_at {pat : Str} (a b : Str) (hpat : pat ≠ [])
    (hb : strStarts pat b = true)
    (ha : ∀ j, j < a.length → strStarts pat ((a ++ b).drop j) = false) :
    findSub pat (a ++ b) = some a.length := by
  induction a with
  | nil =>
    cases b with
    | nil =>
      cases pat with
      | nil => exact absurd rfl hpat
      | cons c p => simp [strStarts] at hb
    | cons d b' =>
      simp [findSub_cons, hb]
  | cons x a ih =>
    have h0 : strStarts pat (x :: (a ++ b)) = false := by
      simpa using ha 0 (by simp)
    have ha' : ∀ j, j < a.length → strStarts pat ((a ++ b).drop j) = false := by
      intro j hj
      have := ha (j + 1) (by simp; omega)
      simpa using this
    rw [List.cons_append, findSub_cons, if_neg (by simp [h0]), ih ha']
    rfl

/-- findSub finds nothing when the pattern occurs nowhere. -/
theorem findSub_none {pat s : Str} (h : ∀ j, strStarts pat (s.drop j) = false) :
    findSub pat s = none := by
  induction s with
  | nil =>
    have h0 : strStarts pat [] = false := by simpa using h 0
    simp [h0]
  | cons c rest ih =>
    have h0 : strStarts pat (c :: rest) = false := by simpa using h 0
    have ih' := ih (fun j => by simpa using h (j + 1))
    rw [findSub_cons, if_neg (by simp [h0]), ih']
    rfl

/-- containsSub decides substring decomposition. -/
theorem containsSub_iff {pat s : Str} :
    containsSub pat s = true ↔ ∃ a b, a ++ (pat ++ b) = s := by
  induction s with
  | nil =>
    simp only [containsSub, strStarts_iff]
    constructor
    · rintro ⟨t, ht⟩
      exact ⟨[], t, by simpa using ht⟩
    · rintro ⟨a, b, h⟩
      rcases List.append_eq_nil.mp h with ⟨rfl, h2⟩
      exact ⟨b, h2⟩
  | cons c rest ih =>
    simp only [containsSub, Bool.or_eq_true, strStarts_iff, ih]
    constructor
    · rintro (⟨t, ht⟩ | ⟨a, b, h⟩)
      · exact ⟨[], t, by simpa using ht⟩
      · exact ⟨c :: a, b, by simp [h]⟩
    · rintro ⟨a, b, h⟩
      cases a with
      | nil => exact Or.inl ⟨b, by simpa using h⟩
      | cons a0 a' =>
        rcases List.cons.injEq .. ▸ h with ⟨rfl, h2⟩
        exact Or.inr ⟨a', b, h2⟩

/-- takeWhile and dropWhile split an append at the first failing element. -/
theorem tw_append {α : Type} {p : α → Bool} (k : List α) (x : α) (t : List α)
    (hk : ∀ c ∈ k, p c = true) (hx : p x = false) :
    (k ++ x :: t).takeWhile p = k ∧ (k ++ x :: t).dropWhile p = x :: t := by
  induction k with
  | nil => simp [List.takeWhile_cons, List.dropWhile_cons, hx]
  | cons a k ih =>
    have ha := hk a (by simp)
    have ih' := ih (fun c hc => hk c (by simp [hc]))
    simp [List.takeWhile_cons, List.dropWhile_cons, ha, ih'.1, ih'.2]

/-- Unfolding equation for lookupKey on the empty map. -/
@[simp] theorem lookupKey_nil {α : Type} (k : Str) :
    lookupKey ([] : List (Str × α)) k = none := rfl

/-- Unfolding equation for lookupKey on a nonempty map. -/
@[simp] theorem lookupKey_cons {α : Type} (k' : Str) (v : α) (m : List (Str × α))
    (k : Str) :
    lookupKey ((k', v) :: m) k = if k' = k then some v else lookupKey m k := rfl

/-- Unfolding equation for objSet on the empty map. -/
@[simp] theorem objSet_nil {α : Type} (k : Str) (v : α) :
    objSet ([] : List (Str × α)) k v = [(k, v)] := rfl

/-- Unfolding equation for objSet on a nonempty map. -/
@[simp] theorem objSet_cons {α : Type} (k' : Str) (v' : α) (m : List (Str × α))
    (k : Str) (v : α) :
    objSet ((k', v') :: m) k v =
      if k' = k then (k, v) :: m else (k', v') :: objSet m k v := rfl

/-- Absence of a key in a JavaScript object map. -/
theorem lookupKey_eq_none {α : Type} {m : List (Str × α)} {k : Str} :
    lookupKey m k = none ↔ ∀ p ∈ m, p.1 ≠ k := by
  induction m with
  | nil => simp
  | cons q m ih =>
    obtain ⟨k', v⟩ := q
    by_cases h : k' = k
    · subst h
      rw [lookupKey_cons, if_pos rfl]
      constructor
      · intro hh
        cases hh
      · intro hh
        exact absurd rfl (hh (k', v) (List.mem_cons_self _ _))
    · rw [lookupKey_cons, if_neg h, ih]
      constructor
      · intro hh p hp
        rcases List.mem_cons.mp hp with rfl | hp'
        · exact h
        · exact hh p hp'
      · intro hh p hp
        exact hh p (List.mem_cons_of_mem _ hp)

/-- Assigning a fresh key appends the binding. -/
theorem objSet_of_none {α : Type} {m : List (Str × α)} {k : Str} {v : α}
    (h : lookupKey m k = none) : objSet m k v = m ++ [(k, v)] := by
  induction m with
  | nil => simp
  | cons q m ih =>
    obtain ⟨k', v'⟩ := q
    by_cases hk : k' = k
    · rw [lookupKey_cons, if_pos hk] at h
      cases h
    · rw [lookupKey_cons, if_neg hk] at h
      simp [hk, ih h]

/-- Deleting an absent key changes nothing. -/
theorem objDel_of_none {α : Type} {m : List (Str × α)} {k : Str}
    (h : lookupKey m k = none) : objDel m k = m := by
  refine List.filter_eq_self.mpr ?_
  intro p hp
  simpa using lookupKey_eq_none.mp h p hp

/-- Lookup of the assigned key. -/
theorem lookupKey_objSet_self {α : Type} {m : List (Str × α)} {k : Str} {v : α} :
    lookupKey (objSet m k v) k = some v := by
  induction m with
  | nil => simp
  | cons q m ih =>
    obtain ⟨k', v'⟩ := q
    by_cases hk : k' = k
    · simp [hk]
    · simp [hk, ih]

/-- Lookup of another key after an assignment. -/
theorem lookupKey_objSet_other {α : Type} {m : List (Str × α)} {k k' : Str} {v : α}
    (h : k' ≠ k) : lookupKey (objSet m k v) k' = lookupKey m k' := by
  have hkk : ¬ (k = k') := fun hh => h hh.symm
  induction m with
  | nil => simp [hkk]
  | cons q m ih =>
    obtain ⟨k0, v0⟩ := q
    by_cases hk : k0 = k
    · subst hk
      simp [hkk, fun hh : k0 = k' => h (hh ▸ rfl)]
    · by_cases hk' : k0 = k'
      · subst hk'
        simp [hk]
      · simp [hk, hk', ih]

/-- Unfolding equation for objDel. -/
theorem objDel_cons {α : Type} (k' : Str) (v : α) (m : List (Str × α)) (k : Str) :
    objDel ((k', v) :: m) k =
      if k' = k then objDel m k else (k', v) :: objDel m k := by
  by_cases h : k' = k <;> simp [objDel, List.filter_cons, h]

/-- Lookup of the deleted key. -/
theorem lookupKey_objDel_self {α : Type} {m : List (Str × α)} {k : Str} :
    lookupKey (objDel m k) k = none := by
  induction m with
  | nil => simp [objDel]
  | cons q m ih =>
    obtain ⟨k', v⟩ := q
    rw [objDel_cons]
    by_cases hk : k' = k
    · simp [hk, ih]
    · simp [hk, ih]

/-- Lookup of another key after a deletion. -/
theorem lookupKey_objDel_other {α : Type} {m : List (Str × α)} {k k' : Str}
    (h : k' ≠ k) : lookupKey (objDel m k) k' = lookupKey m k' := by
  induction m with
  | nil => simp [objDel]
  | cons q m ih =>
    obtain ⟨k0, v0⟩ := q
    rw [objDel_cons]
    by_cases hk : k0 = k
    · subst hk
      have : ¬ (k0 = k') := fun hh => h (hh ▸ rfl)
      simp [this, ih]
    · simp [hk, ih]

/-- Lookup through an append whose left part lacks the key. -/
theorem lookupKey_append {α : Type} {a b : List (Str × α)} {k : Str}
    (h : lookupKey a k = none) : lookupKey (a ++ b) k = lookupKey b k := by
  induction a with
  | nil => simp
  | cons q a ih =>
    obtain ⟨k', v⟩ := q
    by_cases hk : k' = k
    · rw [lookupKey_cons, if_pos hk] at h
      cases h
    · rw [lookupKey_cons, if_neg hk] at h
      simpa [hk] using ih h

/-- Keys of a map after deleting a key. -/
theorem map_fst_objDel {α : Type} {m : List (Str × α)} {k : Str} :
    (objDel m k).map (fun p => p.1) = (m.map (fun p => p.1)).filter (fun t => t ≠ k) := by
  induction m with
  | nil => simp [objDel]
  | cons q m ih =>
    obtain ⟨k', v⟩ := q
    rw [objDel_cons]
    by_cases hk : k' = k
    · simp [hk, ih, List.filter_cons]
    · simp [hk, ih, List.filter_cons]

/-- Filtering out an index below every index of an enumFrom keeps everything. -/
theorem enumFrom_filter_lt {α : Type} {l : List α} {n idx : Nat} (h : idx < n) :
    ((List.enumFrom n l).filter (fun p => p.1 ≠ idx)).map (fun p => p.2) = l := by
  induction l generalizing n with
  | nil => simp
  | cons a l ih =>
    have hp : (fun (p : Nat × α) => decide (p.1 ≠ idx)) (n, a) = true := by
      simp only [decide_eq_true_eq]
      omega
    rw [show List.enumFrom n (a :: l) = (n, a) :: List.enumFrom (n + 1) l from rfl,
      List.filter_cons, if_pos hp, List.map_cons, ih (Nat.lt_succ_of_lt h)]

/-- Filtering out the index n + j from an enumFrom at n erases position j. -/
theorem enumFrom_filter_shift {α : Type} {l : List α} {n j : Nat} :
    ((List.enumFrom n l).filter (fun p => p.1 ≠ (n + j))).map (fun p => p.2) =
      l.eraseIdx j := by
  induction l generalizing n j with
  | nil => simp
  | cons a l ih =>
    cases j with
    | zero =>
      rw [Nat.add_zero]
      have hp : ¬ ((fun (p : Nat × α) => decide (p.1 ≠ n)) (n, a) = true) := by
        simp
      rw [show List.enumFrom n (a :: l) = (n, a) :: List.enumFrom (n + 1) l from rfl,
        List.filter_cons, if_neg hp]
      rw [show (a :: l).eraseIdx 0 = l from rfl]
      exact enumFrom_filter_lt (Nat.lt_succ_self n)
    | succ j' =>
      have hrw : n + (j' + 1) = (n + 1) + j' := by omega
      rw [hrw]
      have hp : (fun (p : Nat × α) => decide (p.1 ≠ (n + 1) + j')) (n, a) = true := by
        simp only [decide_eq_true_eq]
        omega
      rw [show List.enumFrom n (a :: l) = (n, a) :: List.enumFrom (n + 1) l from rfl,
        List.filter_cons, if_pos hp, List.map_cons,
        show (a :: l).eraseIdx (j' + 1) = a :: l.eraseIdx j' from rfl]
      exact congrArg (a :: ·) ih

/-- The filter-by-index idiom of the source equals eraseIdx. -/
theorem removeIdx_eq_eraseIdx {α : Type} (l : List α) (idx : Nat) :
    removeIdx l idx = l.eraseIdx idx := by
  have h := @enumFrom_filter_shift α l 0 idx
  simpa [removeIdx, List.enum] using h

/-- Lookup through an append whose right part lacks the key. -/
theorem lookupKey_append_right {α : Type} {a b : List (Str × α)} {k : Str}
    (h : lookupKey b k = none) : lookupKey (a ++ b) k = lookupKey a k := by
  induction a with
  | nil => simpa using h
  | cons q a ih =>
    obtain ⟨k', v⟩ := q
    by_cases hk : k' = k
    · simp [hk]
    · simpa [hk] using ih

/-- C6: rename is a no-op for an empty or unchanged new title, and a conflict
    with an existing active title is reported with the whole store state (all
    note records, the trash list and the current selection) left unchanged. -/
theorem rename_noop_and_conflict (s : AppState) (nt : Str) :
    ((nt = [] ∨ nt = s.current) → renameNote s nt = (s, RenameOutcome.noop)) ∧
    (nt ≠ [] → nt ≠ s.current → (lookupKey s.notes nt).isSome = true →
      renameNote s nt = (s, RenameOutcome.titleExists)) := by
  constructor
  · intro h
    unfold renameNote
    rw [if_pos h]
  · intro h1 h2 h3
    unfold renameNote
    rw [if_neg (not_or.mpr ⟨h1, h2⟩), if_pos h3]

/-- Witness for C6 at a concrete state: renaming to the empty title is a
    no-op and renaming onto the other active title reports the conflict. -/
theorem rename_noop_and_conflict_witness :
    renameNote fixtureState [] = (fixtureState, RenameOutcome.noop) ∧
    renameNote fixtureState ("B".data) = (fixtureState, RenameOutcome.titleExists) :=
  ⟨(rename_noop_and_conflict fixtureState []).1 (Or.inl rfl),
   (rename_noop_and_conflict fixtureState ("B".data)).2 (by decide) (by decide)
     (by decide)⟩

/-- C10: deleteForever removes exactly the trash entry at the given position,
    keeping the others in order, and emptyTrash clears the trash; neither
    touches the active notes or the current selection. -/
theorem deleteForever_emptyTrash_frame (s : AppState) (i : Nat)
    (h : i < s.trash.length) :
    (deleteForever s i).trash = s.trash.eraseIdx i ∧
    (deleteForever s i).notes = s.notes ∧
    (deleteForever s i).current = s.current ∧
    (emptyTrash s).trash = [] ∧
    (emptyTrash s).notes = s.notes ∧
    (emptyTrash s).current = s.current :=
  ⟨removeIdx_eq_eraseIdx _ _, rfl, rfl, rfl, rfl, rfl⟩

/-- Witness for C10 at a concrete state with a one-element trash. -/
theorem deleteForever_emptyTrash_frame_witness :
    (deleteForever fixtureState 0).trash = fixtureState.trash.eraseIdx 0 ∧
    (deleteForever fixtureState 0).notes = fixtureState.notes ∧
    (deleteForever fixtureState 0).current = fixtureState.current ∧
    (emptyTrash fixtureState).trash = [] ∧
    (emptyTrash fixtureState).notes = fixtureState.notes ∧
    (emptyTrash fixtureState).current = fixtureState.current :=
  deleteForever_emptyTrash_frame fixtureState 0 (by decide)

/-- C9: a confirmed soft delete of a title that is not active still prepends
    a trash entry with an empty content snapshot and leaves the active notes
    map unchanged. -/
theorem softDelete_absent (s : AppState) (T : Str) (now : Nat)
    (h : lookupKey s.notes T = none) :
    (softDeleteNote s T now).trash = ⟨T, [], now⟩ :: s.trash ∧
    (softDeleteNote s T now).notes = s.notes := by
  unfold softDeleteNote
  simp [h, objDel_of_none h]

/-- Witness for C9: soft-deleting an absent title at a concrete state. -/
theorem softDelete_absent_witness :
    (softDeleteNote fixtureState ("Ghost".data) 9).trash =
      ⟨"Ghost".data, [], 9⟩ :: fixtureState.trash ∧
    (softDeleteNote fixtureState ("Ghost".data) 9).notes = fixtureState.notes :=
  softDelete_absent fixtureState ("Ghost".data) 9 (by decide)

/-- C8: a confirmed soft delete of an active title prepends the snapshot of
    its current content to the trash, leaving the previous entries below it,
    removes exactly that title from the active notes, and when the deleted
    title was selected the selection falls back to a remaining active note,
    or to Home when none remain (titles are nonempty per the data model). -/
theorem softDelete_active (s : AppState) (T : Str) (now : Nat) (n : Note)
    (hT : lookupKey s.notes T = some n)
    (htitles : ∀ p ∈ s.notes, p.1 ≠ ([] : Str)) :
    (softDeleteNote s T now).trash = ⟨T, n.content, now⟩ :: s.trash ∧
    lookupKey (softDeleteNote s T now).notes T = none ∧
    (∀ k, k ≠ T → lookupKey (softDeleteNote s T now).notes k = lookupKey s.notes k) ∧
    (T = s.current →
      ((softDeleteNote s T now).notes = [] →
        (softDeleteNote s T now).current = "Home".data) ∧
      ((softDeleteNote s T now).notes ≠ [] →
        (softDeleteNote s T now).current ∈
          (softDeleteNote s T now).notes.map (fun p => p.1))) ∧
    (T ≠ s.current → (softDeleteNote s T now).current = s.current) := by
  have hnotes : (softDeleteNote s T now).notes = objDel s.notes T := by
    unfold softDeleteNote
    rfl
  have htrash : (softDeleteNote s T now).trash = ⟨T, n.content, now⟩ :: s.trash := by
    unfold softDeleteNote
    simp only [hT]
  have hkeys : (softDeleteNote s T now).notes.map (fun p => p.1) =
      (s.notes.map (fun p => p.1)).filter (fun t => t ≠ T) := by
    rw [hnotes, map_fst_objDel]
  refine ⟨htrash, by rw [hnotes]; exact lookupKey_objDel_self, ?_, ?_, ?_⟩
  · intro k hk
    rw [hnotes]
    exact lookupKey_objDel_other hk
  · intro hTc
    have hcur : (softDeleteNote s T now).current =
        match ((s.notes.map (fun p => p.1)).filter (fun t => t ≠ T)).head? with
        | none => "Home".data
        | some t => if t = [] then "Home".data else t := by
      simp only [softDeleteNote]
      rw [if_pos hTc]
    constructor
    · intro hempty
      have hfnil : ((s.notes.map (fun p => p.1)).filter (fun t => t ≠ T)) = [] := by
        rw [← hkeys, hempty]
        rfl
      rw [hcur, hfnil]
      rfl
    · intro hne
      rcases hfk : ((s.notes.map (fun p => p.1)).filter (fun t => t ≠ T)) with
        _ | ⟨t, rest⟩
      · have hmapnil : (softDeleteNote s T now).notes.map (fun p => p.1) = [] := by
          rw [hkeys, hfk]
        exact absurd (List.map_eq_nil_iff.mp hmapnil) hne
      · have htmem : t ∈ (s.notes.map (fun p => p.1)).filter (fun t => t ≠ T) := by
          rw [hfk]
          exact List.mem_cons_self _ _
        have htmap : t ∈ s.notes.map (fun p => p.1) := (List.mem_filter.mp htmem).1
        obtain ⟨p, hp, hpt⟩ := List.mem_map.mp htmap
        have htne : t ≠ ([] : Str) := hpt ▸ htitles p hp
        rw [hcur, hfk]
        simp only [List.head?_cons, if_neg htne]
        rw [hkeys, hfk]
        exact List.mem_cons_self _ _
  · intro hTc
    unfold softDeleteNote
    simp only [if_neg hTc]

/-- Witness for C8: soft-deleting the selected note Home at a concrete state;
    the selection falls back to the remaining note B. -/
theorem softDelete_active_witness :
    (softDeleteNote fixtureState ("Home".data) 9).trash =
      ⟨"Home".data, "hi [[B]]".data, 9⟩ :: fixtureState.trash ∧
    lookupKey (softDeleteNote fixtureState ("Home".data) 9).notes ("Home".data) =
      none ∧
    (softDeleteNote fixtureState ("Home".data) 9).current ∈
      (softDeleteNote fixtureState ("Home".data) 9).notes.map (fun p => p.1) := by
  have h := softDelete_active fixtureState ("Home".data) 9 ⟨"hi [[B]]".data, 1⟩
    (by decide) (by decide)
  exact ⟨h.1, h.2.1, ((h.2.2.2.1 rfl).2 (by decide))⟩

/-- C1 counterexample: in cexRestoreState the suffixed title is itself an
    active note holding the record old-content-2; restoring trash entry 0
    overwrites that record in place with the snapshot content and a fresh
    timestamp, so an existing active note record is lost, refuting the claim
    that no existing active record is ever overwritten. -/
theorem restore_overwrites_cex :
    lookupKey cexRestoreState.notes ("Project (restored)".data) =
      some ⟨"old".data, 2⟩ ∧
    restoreTrash cexRestoreState 0 9 =
      some ⟨[("Project".data, ⟨"v2".data, 1⟩),
             ("Project (restored)".data, ⟨"v1".data, 9⟩)],
            [], "Project (restored)".data⟩ := by decide

/-- C1 amended: when the restored title (the original title, suffixed when
    that title is active) is not itself already active, restore pops the i-th
    trash entry, appends a fresh note under the restored title with the
    snapshot content and the current timestamp, leaves every other active
    record untouched, and selects the restored title. -/
theorem restore_fresh_title (s : AppState) (i now : Nat) (item : TrashEntry)
    (rt : Str) (hi : s.trash[i]? = some item)
    (hrt : rt = if (lookupKey s.notes item.title).isSome then
        item.title ++ (" (restored)".data)
      else item.title)
    (hfree : lookupKey s.notes rt = none) :
    restoreTrash s i now =
      some ⟨s.notes ++ [(rt, ⟨item.content, now⟩)], s.trash.eraseIdx i, rt⟩ ∧
    lookupKey (s.notes ++ [(rt, ⟨item.content, now⟩)]) rt =
      some ⟨item.content, now⟩ ∧
    (∀ k, k ≠ rt →
      lookupKey (s.notes ++ [(rt, ⟨item.content, now⟩)]) k = lookupKey s.notes k) := by
  refine ⟨?_, ?_, ?_⟩
  · unfold restoreTrash
    rw [hi]
    simp only [← hrt]
    rw [objSet_of_none hfree, removeIdx_eq_eraseIdx]
  · rw [lookupKey_append hfree]
    simp
  · intro k hk
    refine lookupKey_append_right ?_
    rw [lookupKey_cons, if_neg (fun h => hk h.symm)]
    rfl

/-- Witness for C1: restoring the only trash entry of a concrete state whose
    original title is still active; the note reappears under the suffixed
    title without touching the existing records. -/
theorem restore_fresh_title_witness :
    restoreTrash fixtureState 0 9 =
      some ⟨fixtureState.notes ++ [("Old".data, ⟨"x".data, 9⟩)],
            fixtureState.trash.eraseIdx 0, "Old".data⟩ ∧
    lookupKey (fixtureState.notes ++ [("Old".data, ⟨"x".data, 9⟩)]) ("Old".data) =
      some ⟨"x".data, 9⟩ := by
  have h := restore_fresh_title fixtureState 0 9 ⟨"Old".data, "x".data, 3⟩
    ("Old".data) (by decide) (by decide) (by decide)
  exact ⟨h.1, h.2.1⟩

/-- C2 counterexample: renaming the only note of cexRenameState (timestamp 7)
    to B keeps the stale timestamp 7 on the moved record; the source never
    reads the clock in this rename, so the claim that the rename sets the
    updatedAt field to the current time fails. -/
theorem rename_no_bump_cex :
    (renameNote cexRenameState ("B".data)).1.notes =
      [("B".data, ⟨"c".data, 7⟩)] := by decide

/-- C2 amended: when the current title is active and the new title is
    nonempty, different and unused, rename moves the record under the new key
    preserving both its content and its previous updatedAt (no timestamp
    bump), removes the old key, leaves every other record and the trash
    unchanged, and selects the new title. -/
theorem rename_moves_record (s : AppState) (nt : Str) (n : Note)
    (hcur : lookupKey s.notes s.current = some n)
    (h1 : nt ≠ []) (h2 : nt ≠ s.current) (h3 : lookupKey s.notes nt = none) :
    lookupKey (renameNote s nt).1.notes nt = some n ∧
    lookupKey (renameNote s nt).1.notes s.current = none ∧
    (∀ k, k ≠ nt → k ≠ s.current →
      lookupKey (renameNote s nt).1.notes k = lookupKey s.notes k) ∧
    (renameNote s nt).1.current = nt ∧
    (renameNote s nt).1.trash = s.trash ∧
    (renameNote s nt).2 = RenameOutcome.renamed := by
  have hr : renameNote s nt =
      ({ s with notes := objDel (objSet s.notes nt n) s.current, current := nt },
        RenameOutcome.renamed) := by
    unfold renameNote
    rw [if_neg (not_or.mpr ⟨h1, h2⟩), if_neg (by simp [h3]), hcur]
  rw [hr]
  refine ⟨?_, ?_, ?_, rfl, rfl, rfl⟩
  · rw [lookupKey_objDel_other h2]
    exact lookupKey_objSet_self
  · exact lookupKey_objDel_self
  · intro k hk1 hk2
    rw [lookupKey_objDel_other hk2]
    exact lookupKey_objSet_other hk1

/-- Witness for C2: renaming Home to C at a concrete state moves the record
    with its content and old timestamp and selects C. -/
theorem rename_moves_record_witness :
    lookupKey (renameNote fixtureState ("C".data)).1.notes ("C".data) =
      some ⟨"hi [[B]]".data, 1⟩ ∧
    (renameNote fixtureState ("C".data)).1.current = "C".data := by
  have h := rename_moves_record fixtureState ("C".data) ⟨"hi [[B]]".data, 1⟩
    (by decide) (by decide) (by decide) (by decide)
  exact ⟨h.1, h.2.2.2.1⟩

/-- Unfolding equation for containsToken on the empty string. -/
@[simp] theorem containsToken_nil : containsToken [] = false := rfl

/-- Unfolding equation for containsToken on a nonempty string. -/
theorem containsToken_cons (c : Char) (rest : Str) :
    containsToken (c :: rest) = (tokenHead c rest || containsToken rest) := rfl

/-- A well-formed token (nonempty inner text without close brackets) matches
    at its own position. -/
theorem tokenHead_token {x b : Str} (hx : x ≠ []) (hxc : ∀ c ∈ x, c ≠ ']') :
    tokenHead '[' ('[' :: (x ++ (']' :: ']' :: b))) = true := by
  have htw : (x ++ (']' :: ']' :: b)).takeWhile (fun d => decide (d ≠ ']')) = x :=
    (tw_append x ']' (']' :: b) (fun c hc => by simpa using hxc c hc) (by simp)).1
  simp only [tokenHead, htw]
  simp [List.drop_left, hx]

/-- A literal bracketed occurrence of a nonempty close-bracket-free title is
    in particular a wiki-link token occurrence. -/
theorem containsToken_of_sub {T s : Str} (hT : T ≠ []) (hTc : ∀ c ∈ T, c ≠ ']')
    (h : ∃ a b, a ++ (("[[".data ++ T ++ "]]".data) ++ b) = s) :
    containsToken s = true := by
  obtain ⟨a, b, rfl⟩ := h
  induction a with
  | nil =>
    have h2 : ([] : Str) ++ (("[[".data ++ T ++ "]]".data) ++ b) =
        '[' :: ('[' :: (T ++ (']' :: ']' :: b))) := by
      rw [show "[[".data = ['[', '['] from rfl, show "]]".data = [']', ']'] from rfl]
      simp
    rw [h2, containsToken_cons, tokenHead_token hT hTc]
    rfl
  | cons c a ih =>
    rw [List.cons_append, containsToken_cons, ih]
    simp

/-- Membership in the backlink list, unfolded to the three filters of the
    source. -/
theorem mem_backlinksOf {notes : List (Str × Note)} {T X : Str} :
    X ∈ backlinksOf notes T ↔
      ∃ n, (X, n) ∈ notes ∧ X ≠ T ∧ containsToken n.content = true ∧
        containsSub ("[[".data ++ T ++ "]]".data) n.content = true := by
  unfold backlinksOf
  constructor
  · intro hmem
    obtain ⟨p, hp, rfl⟩ := List.mem_map.mp hmem
    obtain ⟨hp2, hsub⟩ := List.mem_filter.mp hp
    obtain ⟨hp3, htok⟩ := List.mem_filter.mp hp2
    obtain ⟨hpmem, hne⟩ := List.mem_filter.mp hp3
    refine ⟨p.2, ?_, by simpa using hne, by simpa using htok, by simpa using hsub⟩
    simpa using hpmem
  · rintro ⟨n, hmem, hne, htok, hsub⟩
    refine List.mem_map.mpr ⟨(X, n), ?_, rfl⟩
    refine List.mem_filter.mpr
      ⟨List.mem_filter.mpr ⟨List.mem_filter.mpr ⟨hmem, by simpa using hne⟩,
        by simpa using htok⟩, by simpa using hsub⟩

/-- C4 counterexample: with the fixture notes, the backlinks of Y are exactly
    the note X2, whose parsed body has no wiki-link token at all (the match
    sits inside the front-matter block), while X1, whose body consists of a
    token whose trimmed target is Y, is not listed; both directions of the
    claim (trimmed targets, bodies rather than raw content) fail here. -/
theorem backlinks_trim_body_cex :
    backlinksOf cexBacklinkNotes ("Y".data) = [("X2".data)] ∧
    trimStr (" Y ".data) = "Y".data ∧
    containsToken ("[[ Y ]]".data) = true ∧
    (parseFrontMatter ("[[ Y ]]".data)).body = "[[ Y ]]".data ∧
    (parseFrontMatter ("---\np: [[Y]]\n---\nnothing".data)).body = "nothing".data ∧
    containsToken ("nothing".data) = false := by decide

/-- C4 amended: the backlinks of T are exactly the notes other than T whose
    raw content (front matter included) contains some wiki-link token and the
    literal substring open-open-T-close-close, case-sensitively and without
    trimming; in particular a note containing the literal bracketed title of
    a nonempty, close-bracket-free T is listed. -/
theorem backlinks_exact (notes : List (Str × Note)) (T X : Str) :
    (X ∈ backlinksOf notes T ↔
      ∃ n, (X, n) ∈ notes ∧ X ≠ T ∧ containsToken n.content = true ∧
        ∃ a b, a ++ (("[[".data ++ T ++ "]]".data) ++ b) = n.content) ∧
    (∀ n, (X, n) ∈ notes → X ≠ T → T ≠ [] → (∀ c ∈ T, c ≠ ']') →
      (∃ a b, a ++ (("[[".data ++ T ++ "]]".data) ++ b) = n.content) →
      X ∈ backlinksOf notes T) := by
  constructor
  · rw [mem_backlinksOf]
    simp only [containsSub_iff]
  · intro n hmem hne hT hTc hex
    exact mem_backlinksOf.mpr
      ⟨n, hmem, hne, containsToken_of_sub hT hTc hex, containsSub_iff.mpr hex⟩

/-- Witness for C4: in the two-note scenario of the spec, Project (content
    Hello open-open-Home-close-close) is a backlink of Home. -/
theorem backlinks_exact_witness :
    ("Project".data) ∈ backlinksOf
      [("Home".data, ⟨[], 0⟩), ("Project".data, ⟨"Hello [[Home]]".data, 1⟩)]
      ("Home".data) :=
  (backlinks_exact
      [("Home".data, ⟨[], 0⟩), ("Project".data, ⟨"Hello [[Home]]".data, 1⟩)]
      ("Home".data) ("Project".data)).2
    ⟨"Hello [[Home]]".data, 1⟩ (by decide) (by decide) (by decide)
    (by decide)
    ⟨"Hello ".data, [], by decide⟩

/-- Escaping leaves a character without markup specials unchanged. -/
theorem escChar_plain {c : Char} (h1 : c ≠ '&') (h2 : c ≠ '<') (h3 : c ≠ '>') :
    escChar c = [c] := by
  simp [escChar, h1, h2, h3]

/-- Escaping a string without markup specials is the identity. -/
theorem esc_plain {s : Str} (h : ∀ c ∈ s, c ≠ '&' ∧ c ≠ '<' ∧ c ≠ '>') :
    esc s = s := by
  induction s with
  | nil => rfl
  | cons c rest ih =>
    have hc := h c (List.mem_cons_self _ _)
    have ih' := ih (fun d hd => h d (List.mem_cons_of_mem _ hd))
    simp only [esc, List.map_cons, List.flatten_cons] at ih' ⊢
    rw [escChar_plain hc.1 hc.2.1 hc.2.2, ih', List.singleton_append]

/-- Escaping never produces a star, an underscore or an open bracket that was
    not already present. -/
theorem esc_no_markup {s : Str} (h : ∀ c ∈ s, c ≠ '*' ∧ c ≠ '_' ∧ c ≠ '[') :
    ∀ e ∈ esc s, e ≠ '*' ∧ e ≠ '_' ∧ e ≠ '[' := by
  induction s with
  | nil =>
    intro e he
    simp [esc] at he
  | cons c rest ih =>
    intro e he
    have hc := h c (List.mem_cons_self _ _)
    have ih' := ih (fun d hd => h d (List.mem_cons_of_mem _ hd))
    simp only [esc, List.map_cons, List.flatten_cons, List.mem_append] at he
    rcases he with he | he
    · by_cases h1 : c = '&'
      · simp only [escChar, if_pos h1] at he
        have hall : ∀ x ∈ ("&amp;".data), x ≠ '*' ∧ x ≠ '_' ∧ x ≠ '[' := by decide
        exact hall e he
      · by_cases h2 : c = '<'
        · simp only [escChar, if_neg h1, if_pos h2] at he
          have hall : ∀ x ∈ ("&lt;".data), x ≠ '*' ∧ x ≠ '_' ∧ x ≠ '[' := by decide
          exact hall e he
        · by_cases h3 : c = '>'
          · simp only [escChar, if_neg h1, if_neg h2, if_pos h3] at he
            have hall : ∀ x ∈ ("&gt;".data), x ≠ '*' ∧ x ≠ '_' ∧ x ≠ '[' := by decide
            exact hall e he
          · simp only [escChar, if_neg h1, if_neg h2, if_neg h3,
              List.mem_singleton] at he
            exact he ▸ hc
    · exact ih' e he

/-- Escaping a nonempty string gives a nonempty string. -/
theorem esc_ne_nil {s : Str} (h : s ≠ []) : esc s ≠ [] := by
  cases s with
  | nil => exact absurd rfl h
  | cons c rest =>
    have hcne : escChar c ≠ [] := by
      unfold escChar
      split
      · decide
      · split
        · decide
        · split
          · decide
          · simp
    simp only [esc, List.map_cons, List.flatten_cons]
    exact fun hh => hcne (List.append_eq_nil.mp hh).1

/-- The bold scanner is the identity on star-free text. -/
theorem replaceBoldGo_id {s : Str} (h : ∀ c ∈ s, c ≠ '*') (fuel : Nat) :
    replaceBoldGo fuel s = s := by
  induction fuel generalizing s with
  | zero => rfl
  | succ fuel ih =>
    cases s with
    | nil => rfl
    | cons c rest =>
      have hc : ¬ (c = '*') := h c (List.mem_cons_self _ _)
      simp only [replaceBoldGo, if_neg hc]
      rw [ih (fun d hd => h d (List.mem_cons_of_mem _ hd))]

/-- The italic scanner is the identity on star-free text. -/
theorem replaceItalicGo_id {s : Str} (h : ∀ c ∈ s, c ≠ '*') (fuel : Nat) :
    replaceItalicGo fuel s = s := by
  induction fuel generalizing s with
  | zero => rfl
  | succ fuel ih =>
    cases s with
    | nil => rfl
    | cons c rest =>
      have hc : ¬ (c = '*') := h c (List.mem_cons_self _ _)
      simp only [replaceItalicGo, if_neg hc]
      rw [ih (fun d hd => h d (List.mem_cons_of_mem _ hd))]

/-- The underline scanner is the identity on underscore-free text. -/
theorem replaceUnderGo_id {s : Str} (h : ∀ c ∈ s, c ≠ '_') (fuel : Nat) :
    replaceUnderGo fuel s = s := by
  induction fuel generalizing s with
  | zero => rfl
  | succ fuel ih =>
    cases s with
    | nil => rfl
    | cons c rest =>
      have hc : ¬ (c = '_') := h c (List.mem_cons_self _ _)
      simp only [replaceUnderGo, if_neg hc]
      rw [ih (fun d hd => h d (List.mem_cons_of_mem _ hd))]

/-- The wiki scanner is the identity on open-bracket-free text. -/
theorem replaceWikiGo_id {s : Str} (h : ∀ c ∈ s, c ≠ '[') (fuel : Nat) :
    replaceWikiGo fuel s = s := by
  induction fuel generalizing s with
  | zero => rfl
  | succ fuel ih =>
    cases s with
    | nil => rfl
    | cons c rest =>
      have hc : ¬ (c = '[') := h c (List.mem_cons_self _ _)
      simp only [replaceWikiGo, if_neg hc]
      rw [ih (fun d hd => h d (List.mem_cons_of_mem _ hd))]

/-- One unfolding step of the wiki scanner at a double open bracket. -/
theorem replaceWikiGo_step (m : Nat) (r2 : Str) :
    replaceWikiGo (m + 1) ('[' :: ('[' :: r2)) =
      if (r2.takeWhile (fun d => decide (d ≠ ']'))) ≠ [] ∧
          ((r2.drop (r2.takeWhile (fun d => decide (d ≠ ']'))).length).take 2 =
            [']', ']'])
        then wikiAnchor (r2.takeWhile (fun d => decide (d ≠ ']'))) ++
          replaceWikiGo m
            ((r2.drop (r2.takeWhile (fun d => decide (d ≠ ']'))).length).drop 2)
        else '[' :: replaceWikiGo m ('[' :: r2) := rfl

/-- The wiki scanner leaves an exhausted string unchanged for any fuel. -/
theorem replaceWikiGo_nil (m : Nat) : replaceWikiGo m [] = [] := by
  cases m <;> rfl

/-- The wiki scanner turns a lone well-formed token into its anchor. -/
theorem replaceWiki_token {x : Str} (hx : x ≠ []) (hxc : ∀ c ∈ x, c ≠ ']') :
    replaceWiki ('[' :: ('[' :: (x ++ [']', ']']))) = wikiAnchor x := by
  have htw : (x ++ [']', ']']).takeWhile (fun d => decide (d ≠ ']')) = x :=
    (tw_append x ']' [']'] (fun c hc => by simpa using hxc c hc) (by simp)).1
  unfold replaceWiki
  rw [List.length_cons, replaceWikiGo_step, htw, List.drop_left,
    if_pos ⟨hx, by decide⟩, show List.drop 2 [']', ']'] = ([] : Str) from rfl,
    replaceWikiGo_nil, List.append_nil]

/-- A line whose first character is not a hash mark is not a heading. -/
theorem isHeading_false {line : Str} {n : Nat} (hn : n ≠ 0)
    (h : line.head? ≠ some '#') : isHeading n line = false := by
  obtain ⟨k, rfl⟩ : ∃ k, n = k + 1 := ⟨n - 1, by omega⟩
  unfold isHeading
  cases line with
  | nil => simp [List.replicate_succ, strStarts]
  | cons c rest =>
    have hc : ¬ ('#' = c) := fun hh => h (by simp [hh.symm])
    simp [List.replicate_succ, strStarts, hc]

/-- Rendering a non-heading markup-free line escapes it into one paragraph. -/
theorem renderLine_plain {line : Str} (hne : line ≠ [])
    (hh : line.head? ≠ some '#')
    (hm : ∀ c ∈ line, c ≠ '*' ∧ c ≠ '_' ∧ c ≠ '[') :
    renderLine line = "<p>".data ++ (esc line ++ "</p>".data) := by
  have hesc := esc_no_markup hm
  have h1 : replaceBold (esc line) = esc line :=
    replaceBoldGo_id (fun c hc => (hesc c hc).1) _
  have h2 : replaceItalic (esc line) = esc line :=
    replaceItalicGo_id (fun c hc => (hesc c hc).1) _
  have h3 : replaceUnder (esc line) = esc line :=
    replaceUnderGo_id (fun c hc => (hesc c hc).2.1) _
  have h4 : replaceWiki (esc line) = esc line :=
    replaceWikiGo_id (fun c hc => (hesc c hc).2.2) _
  unfold renderLine
  rw [isHeading_false (by omega) hh, isHeading_false (by omega) hh,
    isHeading_false (by omega) hh]
  simp only [Bool.false_eq_true, if_false]
  rw [h1, h2, h3, h4, if_neg (esc_ne_nil hne)]

/-- Rendering a line that consists of one well-formed wiki token produces a
    paragraph holding exactly the anchor for the enclosed text. -/
theorem renderLine_token {x : Str} (hx : x ≠ [])
    (hxc : ∀ c ∈ x, c ≠ ']' ∧ c ≠ '*' ∧ c ≠ '_' ∧ c ≠ '&' ∧ c ≠ '<' ∧ c ≠ '>') :
    renderLine ('[' :: ('[' :: (x ++ [']', ']']))) =
      "<p>".data ++ (wikiAnchor x ++ "</p>".data) := by
  have hmem : ∀ c ∈ ('[' :: ('[' :: (x ++ [']', ']']))),
      c = '[' ∨ c ∈ x ∨ c = ']' := by
    intro c hc
    rcases List.mem_cons.mp hc with rfl | hc
    · exact Or.inl rfl
    rcases List.mem_cons.mp hc with rfl | hc
    · exact Or.inl rfl
    rcases List.mem_append.mp hc with hc | hc
    · exact Or.inr (Or.inl hc)
    · rcases List.mem_cons.mp hc with rfl | hc
      · exact Or.inr (Or.inr rfl)
      · simp only [List.mem_singleton] at hc
        exact Or.inr (Or.inr hc)
  have hplain : ∀ c ∈ ('[' :: ('[' :: (x ++ [']', ']']))),
      c ≠ '&' ∧ c ≠ '<' ∧ c ≠ '>' := by
    intro c hc
    rcases hmem c hc with rfl | hc | rfl
    · exact (by decide)
    · exact ⟨(hxc c hc).2.2.2.1, (hxc c hc).2.2.2.2.1, (hxc c hc).2.2.2.2.2⟩
    · exact (by decide)
  have hstar : ∀ c ∈ ('[' :: ('[' :: (x ++ [']', ']']))), c ≠ '*' := by
    intro c hc
    rcases hmem c hc with rfl | hc | rfl
    · exact (by decide)
    · exact (hxc c hc).2.1
    · exact (by decide)
  have hund : ∀ c ∈ ('[' :: ('[' :: (x ++ [']', ']']))), c ≠ '_' := by
    intro c hc
    rcases hmem c hc with rfl | hc | rfl
    · exact (by decide)
    · exact (hxc c hc).2.2.1
    · exact (by decide)
  have hesc : esc ('[' :: ('[' :: (x ++ [']', ']']))) =
      '[' :: ('[' :: (x ++ [']', ']'])) := esc_plain hplain
  unfold renderLine
  rw [isHeading_false (by omega) (by simp), isHeading_false (by omega) (by simp),
    isHeading_false (by omega) (by simp)]
  simp only [Bool.false_eq_true, if_false]
  have h1 : replaceBold ('[' :: ('[' :: (x ++ [']', ']']))) =
      '[' :: ('[' :: (x ++ [']', ']'])) := replaceBoldGo_id hstar _
  have h2 : replaceItalic ('[' :: ('[' :: (x ++ [']', ']']))) =
      '[' :: ('[' :: (x ++ [']', ']'])) := replaceItalicGo_id hstar _
  have h3 : replaceUnder ('[' :: ('[' :: (x ++ [']', ']']))) =
      '[' :: ('[' :: (x ++ [']', ']'])) := replaceUnderGo_id hund _
  rw [hesc, h1, h2, h3, replaceWiki_token hx (fun c hc => (hxc c hc).1)]
  have hanne : wikiAnchor x ≠ [] := by
    intro hh
    have h0 := (List.append_eq_nil.mp
      (List.append_eq_nil.mp (List.append_eq_nil.mp (List.append_eq_nil.mp hh).1).1).1).1
    exact (by decide :
      ("<a href=\"#\" class=\"wikilink\" data-title=\"".data : Str) ≠ []) h0
  rw [if_neg hanne]

/-- C7 counterexample: rendering the token with inner whitespace around Bob
    produces an anchor whose data-title is the enclosed text verbatim, with
    the whitespace kept; activating that anchor on an empty store creates a
    note titled space-Bob-space, not the trimmed Bob, refuting the claim that
    the open-note capability receives the trimmed title. -/
theorem render_untrimmed_cex :
    renderLine ("[[ Bob ]]".data) =
      "<p>".data ++ (wikiAnchor (" Bob ".data) ++ "</p>".data) ∧
    trimStr (" Bob ".data) = "Bob".data ∧
    (handlerOpen ⟨[], [], "Home".data⟩ (" Bob ".data) 5).notes =
      [((" Bob ".data), ⟨[], 5⟩)] ∧
    lookupKey (handlerOpen ⟨[], [], "Home".data⟩ (" Bob ".data) 5).notes
      ("Bob".data) = none := by decide

/-- C7 amended: on a non-heading line the raw text is escaped first and the
    bold, italic, underline and wiki-link substitutions run in that order
    (witnessed by the nested rendering of a triple-star span); a well-formed
    wiki token becomes the anchor carrying the enclosed title verbatim (no
    trimming), and activating it opens or creates exactly that title. -/
theorem render_markup_pipeline (x line : Str) (s : AppState) (now : Nat)
    (hx : x ≠ [])
    (hxc : ∀ c ∈ x, c ≠ ']' ∧ c ≠ '*' ∧ c ≠ '_' ∧ c ≠ '&' ∧ c ≠ '<' ∧ c ≠ '>')
    (hlne : line ≠ []) (hlh : line.head? ≠ some '#')
    (hlm : ∀ c ∈ line, c ≠ '*' ∧ c ≠ '_' ∧ c ≠ '[') :
    renderLine ('[' :: ('[' :: (x ++ [']', ']']))) =
      "<p>".data ++ (wikiAnchor x ++ "</p>".data) ∧
    (handlerOpen s x now).current = x ∧
    (lookupKey s.notes x = none →
      lookupKey (handlerOpen s x now).notes x = some ⟨[], now⟩) ∧
    (∀ n0, lookupKey s.notes x = some n0 → (handlerOpen s x now).notes = s.notes) ∧
    renderLine line = "<p>".data ++ (esc line ++ "</p>".data) ∧
    renderLine ("***hi***".data) = "<p><em><strong>hi</strong></em></p>".data := by
  refine ⟨renderLine_token hx hxc, rfl, ?_, ?_, renderLine_plain hlne hlh hlm,
    by decide⟩
  · intro hnone
    unfold handlerOpen
    rw [hnone]
    exact lookupKey_objSet_self
  · intro n0 hsome
    unfold handlerOpen
    rw [hsome]

/-- Witness for C7: the token Bob renders to its anchor and the line a-and-b
    escapes its ampersand before substitution. -/
theorem render_markup_pipeline_witness :
    renderLine ('[' :: ('[' :: ("Bob".data ++ [']', ']']))) =
      "<p>".data ++ (wikiAnchor ("Bob".data) ++ "</p>".data) ∧
    renderLine ("a&b".data) = "<p>".data ++ (esc ("a&b".data) ++ "</p>".data) := by
  have h := render_markup_pipeline ("Bob".data) ("a&b".data) ⟨[], [], "Home".data⟩ 5
    (by decide) (by decide) (by decide) (by decide) (by decide)
  exact ⟨h.1, h.2.2.2.2.1⟩

/-- A prefix test fails on a head mismatch. -/
theorem strStarts_head_false {c d : Char} {p s : Str} (h : c ≠ d) :
    strStarts (c :: p) (d :: s) = false := by
  simp [strStarts, h]

/-- A prefix test shorter than the left part of an append ignores the right
    part. -/
theorem strStarts_append_left {p a b : Str} (h : p.length ≤ a.length) :
    strStarts p (a ++ b) = strStarts p a := by
  induction p generalizing a with
  | nil => simp [strStarts]
  | cons c p ih =>
    cases a with
    | nil => simp at h
    | cons d a' =>
      simp only [List.cons_append, strStarts, List.append_eq]
      rw [ih (by simpa using h)]

/-- Dropping fewer characters than the left part of an append exposes a
    character of the left part. -/
theorem drop_append_mem {l : Str} (Y : Str) {j : Nat} (h : j < l.length) :
    ∃ c w, (l ++ Y).drop j = c :: w ∧ c ∈ l := by
  induction l generalizing j with
  | nil => simp at h
  | cons a l ih =>
    cases j with
    | zero => exact ⟨a, l ++ Y, rfl, List.mem_cons_self _ _⟩
    | succ j' =>
      obtain ⟨c, w, hw, hc⟩ := ih (by simpa using Nat.lt_of_succ_lt_succ h)
      exact ⟨c, w, hw, List.mem_cons_of_mem _ hc⟩

/-- The positive contract of parseFrontMatter: when the text is an opening
    delimiter line, a header, the closing delimiter and a remainder, and the
    closing delimiter pattern occurs nowhere inside the header region, the
    parser returns the properties of the trimmed header and the remainder
    with one leading newline stripped. -/
theorem parseFrontMatter_decomp (hdr rest : Str)
    (hmin : ∀ j, j < hdr.length →
      strStarts ("\n---".data) ((hdr ++ ("\n---".data ++ rest)).drop j) = false) :
    parseFrontMatter ("---\n".data ++ (hdr ++ ("\n---".data ++ rest))) =
      ⟨buildProps (splitRuns (trimStr hdr)), stripLeadNL rest⟩ := by
  have hlen4 : ("---\n".data : Str).length = 4 := rfl
  have hdrop : ("---\n".data ++ (hdr ++ ("\n---".data ++ rest))).drop 4 =
      hdr ++ ("\n---".data ++ rest) := List.drop_left' hlen4
  have htake : ("---\n".data ++ (hdr ++ ("\n---".data ++ rest))).take 4 =
      "---\n".data := List.take_left' hlen4
  have hfind :
      findFrom ("\n---".data) ("---\n".data ++ (hdr ++ ("\n---".data ++ rest))) 4 =
        some (hdr.length + 4) := by
    unfold findFrom
    rw [hdrop, findSub_at hdr ("\n---".data ++ rest) (by decide)
      (strStarts_self_append _ _) hmin]
    rfl
  unfold parseFrontMatter
  rw [htake, if_pos rfl, hfind]
  show parseWith _ (hdr.length + 4) = _
  unfold parseWith
  rw [hdrop]
  have h44 : hdr.length + 4 - 4 = hdr.length := by omega
  rw [h44, List.take_left]
  have hdropbody :
      ("---\n".data ++ (hdr ++ ("\n---".data ++ rest))).drop (hdr.length + 4 + 4) =
        rest := by
    rw [show "---\n".data ++ (hdr ++ ("\n---".data ++ rest)) =
        (("---\n".data ++ hdr) ++ "\n---".data) ++ rest by simp]
    refine List.drop_left' ?_
    simp only [List.length_append, hlen4, show ("\n---".data : Str).length = 4 from rfl]
    omega
  rw [hdropbody]

/-- The parser returns the whole text when the opening delimiter is absent. -/
theorem parseFrontMatter_no_open {text : Str} (h : text.take 4 ≠ "---\n".data) :
    parseFrontMatter text = ⟨[], text⟩ := by
  unfold parseFrontMatter
  rw [if_neg h]

/-- The parser returns the whole text when the closing pattern occurs at no
    index from 4 on. -/
theorem parseFrontMatter_no_close {text : Str}
    (h : ∀ j, 4 ≤ j → strStarts ("\n---".data) (text.drop j) = false) :
    parseFrontMatter text = ⟨[], text⟩ := by
  unfold parseFrontMatter
  by_cases h4 : text.take 4 = "---\n".data
  · rw [if_pos h4]
    have hnone : findFrom ("\n---".data) text 4 = none := by
      unfold findFrom
      rw [findSub_none (fun j => by
        have hj := h (4 + j) (by omega)
        rw [List.drop_drop]
        exact hj)]
      rfl
    rw [hnone]
  · rw [if_neg h4]

/-- C3 counterexample: the input with closing line dash-dash-dash-x has no
    line consisting of three dashes after the opening delimiter, so the claim
    demands no properties and the whole input as body, but the substring
    search of the source accepts the newline-dash-dash-dash prefix of that
    line, yielding a property and the truncated body. -/
theorem parseFrontMatter_loose_close_cex :
    parseFrontMatter ("---\na: b\n---x\nrest".data) =
      ⟨[("a".data, "b".data)], "x\nrest".data⟩ ∧
    parseFrontMatter ("---\na: b\n---x\nrest".data) ≠
      ⟨[], "---\na: b\n---x\nrest".data⟩ := by decide

/-- C3 amended: parseFrontMatter is total; it returns empty properties and
    the whole input when the input does not start with the opening delimiter
    line, or when no index from 4 on carries the newline-dash-dash-dash
    pattern (the closing delimiter is any line starting with three dashes,
    not only a line consisting of them); otherwise, for the first such
    occurrence, the text strictly between the delimiters is trimmed and each
    of its lines splitting at the first colon with nonempty key becomes a
    property with key and value trimmed, lines without a colon (or with an
    empty key) are ignored, and the body is the text after the four matched
    characters with a single leading newline stripped. -/
theorem parseFrontMatter_contract (text hdr rest : Str) :
    (text.take 4 ≠ "---\n".data → parseFrontMatter text = ⟨[], text⟩) ∧
    ((∀ j, 4 ≤ j → strStarts ("\n---".data) (text.drop j) = false) →
      parseFrontMatter text = ⟨[], text⟩) ∧
    ((∀ j, j < hdr.length →
        strStarts ("\n---".data) ((hdr ++ ("\n---".data ++ rest)).drop j) = false) →
      parseFrontMatter ("---\n".data ++ (hdr ++ ("\n---".data ++ rest))) =
        ⟨buildProps (splitRuns (trimStr hdr)), stripLeadNL rest⟩) ∧
    (∀ k v, k ≠ [] → (∀ c ∈ k, c ≠ ':') →
      parsePropLine (k ++ ':' :: v) = some (trimStr k, trimStr v)) ∧
    (∀ line, (∀ c ∈ line, c ≠ ':') → parsePropLine line = none) := by
  refine ⟨parseFrontMatter_no_open, parseFrontMatter_no_close,
    parseFrontMatter_decomp hdr rest, ?_, ?_⟩
  · intro k v hk hkc
    have htw := @tw_append Char (fun d => decide (d ≠ ':')) k ':' v
      (fun c hc => by simpa using hkc c hc) (by simp)
    unfold parsePropLine
    rw [htw.1, htw.2]
    simp [hk]
  · intro line hline
    have hdw : line.dropWhile (fun d => decide (d ≠ ':')) = [] := by
      rw [List.dropWhile_eq_nil_iff]
      intro c hc
      simpa using hline c hc
    unfold parsePropLine
    rw [hdw]

/-- Witness for C3: a short input without front matter, a concrete
    well-delimited input, and a property line with padded value. -/
theorem parseFrontMatter_contract_witness :
    parseFrontMatter ("x".data) = ⟨[], "x".data⟩ ∧
    parseFrontMatter ("---\n".data ++ ("a: b".data ++ ("\n---".data ++ "\nhi".data))) =
      ⟨buildProps (splitRuns (trimStr ("a: b".data))), stripLeadNL ("\nhi".data)⟩ ∧
    parsePropLine ("key".data ++ ':' :: " v ".data) =
      some (trimStr ("key".data), trimStr (" v ".data)) := by
  have h := parseFrontMatter_contract ("x".data) ("a: b".data) ("\nhi".data)
  exact ⟨h.1 (by decide), h.2.2.1 (by decide),
    h.2.2.2.1 ("key".data) (" v ".data) (by decide) (by decide)⟩

/-- Unfolding equation for the split worker on the empty string. -/
theorem srGo_nil (cur : Str) : srGo cur [] = [cur.reverse] := rfl

/-- Unfolding equation for the split worker on a nonempty string. -/
theorem srGo_cons (cur : Str) (c : Char) (rest : Str) :
    srGo cur (c :: rest) =
      if c = '\n' then cur.reverse :: srSkip rest else srGo (c :: cur) rest := rfl

/-- Unfolding equation for the newline-run skipper on a nonempty string. -/
theorem srSkip_cons (c : Char) (rest : Str) :
    srSkip (c :: rest) = if c = '\n' then srSkip rest else srGo [c] rest := rfl

/-- The split worker consumes a newline-free chunk into its accumulator. -/
theorem srGo_chunk (l : Str) (hl : ∀ c ∈ l, c ≠ '\n') (cur s : Str) :
    srGo cur (l ++ s) = srGo (l.reverse ++ cur) s := by
  induction l generalizing cur with
  | nil => simp
  | cons c l ih =>
    have hc : ¬ (c = '\n') := hl c (List.mem_cons_self _ _)
    rw [List.cons_append, srGo_cons, if_neg hc,
      ih (fun d hd => hl d (List.mem_cons_of_mem _ hd)) (c :: cur)]
    congr 1
    simp

/-- Join of a cons with a nonempty tail. -/
theorem joinLines_cons_ne {l : Str} {M : List Str} (h : M ≠ []) :
    joinLines (l :: M) = l ++ '\n' :: joinLines M := by
  cases M with
  | nil => exact absurd rfl h
  | cons _ _ => rfl

/-- A join starts with its first line. -/
theorem joinLines_decomp (l : Str) (ls : List Str) :
    ∃ Y, joinLines (l :: ls) = l ++ Y := by
  cases ls with
  | nil => exact ⟨[], by simp [joinLines]⟩
  | cons l2 ls' => exact ⟨'\n' :: joinLines (l2 :: ls'), rfl⟩

/-- mapLast keeps a list nonempty. -/
theorem mapLast_cons_ne (f : Str → Str) (l : Str) (ls : List Str) :
    mapLast f (l :: ls) ≠ [] := by
  cases ls <;> simp [mapLast]

/-- Members of a mapLast image come from the list, possibly through f. -/
theorem mem_mapLast {f : Str → Str} {m : Str} :
    ∀ {l : List Str}, m ∈ mapLast f l → m ∈ l ∨ ∃ m0 ∈ l, m = f m0
  | [], h => by simp [mapLast] at h
  | [a], h => by
    simp [mapLast] at h
    exact Or.inr ⟨a, by simp, h⟩
  | a :: b :: l, h => by
    rw [show mapLast f (a :: b :: l) = a :: mapLast f (b :: l) from rfl] at h
    rcases List.mem_cons.mp h with rfl | h
    · exact Or.inl (List.mem_cons_self _ _)
    · rcases mem_mapLast h with h | ⟨m0, hm0, hf⟩
      · exact Or.inl (List.mem_cons_of_mem _ h)
      · exact Or.inr ⟨m0, List.mem_cons_of_mem _ hm0, hf⟩

/-- The split worker recovers the lines of a join of nonempty newline-free
    lines. -/
theorem srGo_join (lines : List Str) (l : Str) (cur : Str)
    (hl : ∀ c ∈ l, c ≠ '\n')
    (hlines : ∀ m ∈ lines, m ≠ [] ∧ ∀ c ∈ m, c ≠ '\n') :
    srGo cur (joinLines (l :: lines)) = (cur.reverse ++ l) :: lines := by
  induction lines generalizing cur l with
  | nil =>
    rw [show joinLines [l] = l from rfl, show l = l ++ [] by simp, srGo_chunk l hl,
      srGo_nil]
    simp
  | cons l2 ls ih =>
    obtain ⟨hl2ne, hl2nl⟩ := hlines l2 (List.mem_cons_self _ _)
    obtain ⟨c2, Y2, rfl⟩ := List.exists_cons_of_ne_nil hl2ne
    have hc2 : c2 ≠ '\n' := hl2nl c2 (List.mem_cons_self _ _)
    rw [joinLines_cons_ne (by simp), srGo_chunk l hl, srGo_cons, if_pos rfl]
    have hskip : srSkip (joinLines ((c2 :: Y2) :: ls)) =
        srGo [] (joinLines ((c2 :: Y2) :: ls)) := by
      obtain ⟨Y, hY⟩ := joinLines_decomp (c2 :: Y2) ls
      rw [hY, List.cons_append, srSkip_cons, if_neg hc2, srGo_cons, if_neg hc2]
    rw [hskip, ih (c2 :: Y2) []  hl2nl (fun m hm => hlines m (List.mem_cons_of_mem _ hm))]
    simp

/-- splitRuns inverts joinLines on nonempty newline-free lines. -/
theorem splitRuns_join (lines : List Str) (hne : lines ≠ [])
    (hlines : ∀ m ∈ lines, m ≠ [] ∧ ∀ c ∈ m, c ≠ '\n') :
    splitRuns (joinLines lines) = lines := by
  obtain ⟨l, ls, rfl⟩ := List.exists_cons_of_ne_nil hne
  unfold splitRuns
  rw [srGo_join ls l [] (hlines l (List.mem_cons_self _ _)).2
    (fun m hm => hlines m (List.mem_cons_of_mem _ hm))]
  simp

/-- Dropping trailing whitespace never lengthens a string. -/
theorem length_dropTrailWS_le (s : Str) : (dropTrailWS s).length ≤ s.length := by
  unfold dropTrailWS
  calc ((s.reverse.dropWhile isWS).reverse).length
      = (s.reverse.dropWhile isWS).length := by rw [List.length_reverse]
    _ ≤ s.reverse.length := (List.dropWhile_suffix isWS).length_le
    _ = s.length := by rw [List.length_reverse]

/-- A trim-stable string is stable under both one-sided trims. -/
theorem trim_stable_split {v : Str} (h : trimStr v = v) :
    v.dropWhile isWS = v ∧ dropTrailWS v = v := by
  have h1 : (v.dropWhile isWS).length ≤ v.length :=
    (List.dropWhile_suffix isWS).length_le
  have h2 : v.length ≤ (v.dropWhile isWS).length := by
    calc v.length = (trimStr v).length := by rw [h]
      _ = (dropTrailWS (v.dropWhile isWS)).length := rfl
      _ ≤ (v.dropWhile isWS).length := length_dropTrailWS_le _
  have hdw : v.dropWhile isWS = v :=
    (List.dropWhile_suffix isWS).eq_of_length (le_antisymm h1 h2)
  refine ⟨hdw, ?_⟩
  calc dropTrailWS v = dropTrailWS (v.dropWhile isWS) := by rw [hdw]
    _ = trimStr v := rfl
    _ = v := h

/-- A nonempty trim-stable string starts with a non-whitespace character. -/
theorem head_not_ws {k : Str} (hk : trimStr k = k) (hne : k ≠ []) :
    ∃ c k', k = c :: k' ∧ isWS c = false := by
  obtain ⟨c, k', rfl⟩ := List.exists_cons_of_ne_nil hne
  refine ⟨c, k', rfl, ?_⟩
  by_contra hc
  have hc' : isWS c = true := by simpa using hc
  have hdw := (trim_stable_split hk).1
  rw [List.dropWhile_cons, if_pos hc'] at hdw
  have hlen := congrArg List.length hdw
  have hle := (show List.dropWhile isWS k' <:+ k' from List.dropWhile_suffix isWS).length_le
  simp only [List.length_cons] at hlen
  omega

/-- A nonempty trim-stable string ends with a non-whitespace character. -/
theorem last_not_ws {v : Str} (hv : trimStr v = v) (hne : v ≠ []) :
    ∃ a c, v = a ++ [c] ∧ isWS c = false := by
  obtain ⟨c, r', hrev⟩ :=
    List.exists_cons_of_ne_nil (show v.reverse ≠ [] by simpa using hne)
  refine ⟨r'.reverse, c, ?_, ?_⟩
  · rw [← List.reverse_reverse v, hrev]
    simp
  · by_contra hc
    have hc' : isWS c = true := by simpa using hc
    have hdt := (trim_stable_split hv).2
    unfold dropTrailWS at hdt
    rw [hrev, List.dropWhile_cons, if_pos hc'] at hdt
    have hlen := congrArg List.length hdt
    have hle := (show List.dropWhile isWS r' <:+ r' from List.dropWhile_suffix isWS).length_le
    have hvr : v.length = r'.length + 1 := by
      rw [← List.length_reverse v, hrev]
      simp
    simp only [List.length_reverse] at hlen
    omega

/-- dropWhile distributes over an append whose left part survives. -/
theorem dropWhile_append_of_ne_nil {p : Char → Bool} {a b : Str}
    (h : a.dropWhile p ≠ []) : (a ++ b).dropWhile p = a.dropWhile p ++ b := by
  rw [List.dropWhile_append, if_neg (by simpa [List.isEmpty_iff] using h)]

/-- Dropping trailing whitespace from a string with a non-whitespace head
    leaves something. -/
theorem dropTrailWS_cons_ne_nil {c : Char} {Y : Str} (hc : isWS c = false) :
    dropTrailWS (c :: Y) ≠ [] := by
  unfold dropTrailWS
  rw [List.reverse_cons, List.dropWhile_append]
  by_cases hY : (Y.reverse.dropWhile isWS).isEmpty
  · rw [if_pos hY]
    simp [List.dropWhile_cons, hc]
  · rw [if_neg hY]
    simp

/-- Dropping trailing whitespace passes through a final newline-separated
    chunk whose own trim is nonempty. -/
theorem dropTrailWS_append_newline {a b : Str} (hb : dropTrailWS b ≠ []) :
    dropTrailWS (a ++ '\n' :: b) = a ++ '\n' :: dropTrailWS b := by
  have hbr : b.reverse.dropWhile isWS ≠ [] := by
    intro hh
    apply hb
    unfold dropTrailWS
    rw [hh]
    rfl
  unfold dropTrailWS
  rw [List.reverse_append, List.reverse_cons,
    dropWhile_append_of_ne_nil (by
      rw [dropWhile_append_of_ne_nil hbr]
      simp),
    dropWhile_append_of_ne_nil hbr]
  simp

/-- Dropping trailing whitespace is the identity when the last character is
    not whitespace. -/
theorem dropTrailWS_id_of_last {A : Str} {c : Char} (hc : isWS c = false) :
    dropTrailWS (A ++ [c]) = A ++ [c] := by
  unfold dropTrailWS
  rw [List.reverse_append]
  simp only [List.reverse_cons, List.reverse_nil, List.nil_append,
    List.singleton_append]
  rw [List.dropWhile_cons, if_neg (by simp [hc])]
  simp

/-- dropWhile of whitespace is the identity on a non-whitespace head. -/
theorem dropWhile_isWS_cons {c : Char} {Y : Str} (hc : isWS c = false) :
    (c :: Y).dropWhile isWS = c :: Y := by
  rw [List.dropWhile_cons, if_neg (by simp [hc])]

/-- Characters survive dropTrailWS only if present before. -/
theorem mem_dropTrailWS {s : Str} {c : Char} (h : c ∈ dropTrailWS s) : c ∈ s := by
  unfold dropTrailWS at h
  rw [List.mem_reverse] at h
  have := (List.dropWhile_suffix isWS).subset h
  simpa using this

/-- Dropping trailing whitespace from a join affects only the last line. -/
theorem dropTrailWS_join (l : Str) (lines : List Str)
    (hheads : ∀ m ∈ lines, ∃ c Y, m = c :: Y ∧ isWS c = false) :
    dropTrailWS (joinLines (l :: lines)) =
      joinLines (mapLast dropTrailWS (l :: lines)) := by
  induction lines generalizing l with
  | nil => rfl
  | cons l2 ls ih =>
    obtain ⟨c2, Y2, hl2, hc2⟩ := hheads l2 (List.mem_cons_self _ _)
    have hne : dropTrailWS (joinLines (l2 :: ls)) ≠ [] := by
      obtain ⟨Y, hY⟩ := joinLines_decomp l2 ls
      rw [hY, hl2, List.cons_append]
      exact dropTrailWS_cons_ne_nil hc2
    rw [joinLines_cons_ne (by simp), dropTrailWS_append_newline hne,
      ih l2 (fun m hm => hheads m (List.mem_cons_of_mem _ hm)),
      show mapLast dropTrailWS (l :: l2 :: ls) =
        l :: mapLast dropTrailWS (l2 :: ls) from rfl,
      joinLines_cons_ne (mapLast_cons_ne _ _ _)]

/-- Trimming a join of lines with non-whitespace heads only touches the end
    of the last line. -/
theorem trimStr_join (l : Str) (lines : List Str) (c : Char) (Y : Str)
    (hl : l = c :: Y) (hc : isWS c = false)
    (hheads : ∀ m ∈ lines, ∃ c2 Y2, m = c2 :: Y2 ∧ isWS c2 = false) :
    trimStr (joinLines (l :: lines)) =
      joinLines (mapLast dropTrailWS (l :: lines)) := by
  obtain ⟨Z, hZ⟩ := joinLines_decomp l lines
  unfold trimStr
  rw [hZ, hl, List.cons_append, dropWhile_isWS_cons hc, ← List.cons_append, ← hl,
    ← hZ]
  exact dropTrailWS_join l lines hheads

/-- A serialized property line parses back to its entry. -/
theorem parsePropLine_entry {k v : Str} (hk : k ≠ []) (hkc : ∀ c ∈ k, c ≠ ':')
    (hkt : trimStr k = k) (hvt : trimStr v = v) :
    parsePropLine (entryLine (k, v)) = some (k, v) := by
  have hsh : entryLine (k, v) = k ++ ':' :: ' ' :: v := by
    unfold entryLine
    simp
  have htw := @tw_append Char (fun d => decide (d ≠ ':')) k ':' (' ' :: v)
    (fun c hc => by simpa using hkc c hc) (by simp)
  rw [hsh]
  unfold parsePropLine
  rw [htw.1, htw.2]
  simp only [if_neg hk]
  have hv : trimStr (' ' :: v) = v := by
    unfold trimStr
    rw [List.dropWhile_cons, if_pos (by decide), (trim_stable_split hvt).1,
      (trim_stable_split hvt).2]
  rw [hkt, hv]

/-- A serialized property line still parses back to its entry after its
    trailing whitespace is dropped. -/
theorem parsePropLine_entry_trail {k v : Str} (hk : k ≠ []) (hkc : ∀ c ∈ k, c ≠ ':')
    (hkt : trimStr k = k) (hvt : trimStr v = v) :
    parsePropLine (dropTrailWS (entryLine (k, v))) = some (k, v) := by
  cases hv0 : v with
  | nil =>
    have h1 : dropTrailWS (entryLine (k, [])) = k ++ [':'] := by
      unfold entryLine dropTrailWS
      rw [show (k ++ ": ".data) ++ [] = (k ++ [':']) ++ [' '] by simp,
        List.reverse_append]
      simp only [List.reverse_cons, List.reverse_nil, List.nil_append,
        List.singleton_append]
      rw [List.dropWhile_cons, if_pos (by decide), List.reverse_append]
      simp only [List.reverse_cons, List.reverse_nil, List.nil_append,
        List.singleton_append]
      rw [List.dropWhile_cons, if_neg (by decide)]
      simp
    rw [h1]
    have htw := @tw_append Char (fun d => decide (d ≠ ':')) k ':' []
      (fun c hc => by simpa using hkc c hc) (by simp)
    unfold parsePropLine
    rw [show k ++ [':'] = k ++ ':' :: [] from rfl, htw.1, htw.2]
    simp only [if_neg hk]
    rw [hkt]
    rfl
  | cons v0 v' =>
    obtain ⟨a, c, hva, hc⟩ := last_not_ws (hv0 ▸ hvt) (by simp)
    have h2 : dropTrailWS (entryLine (k, v0 :: v')) = entryLine (k, v0 :: v') := by
      unfold entryLine
      rw [show k ++ ": ".data ++ (v0 :: v') = (k ++ ": ".data ++ a) ++ [c] by
        rw [hva]; simp]
      rw [dropTrailWS_id_of_last hc]
    rw [h2, ← hv0]
    exact parsePropLine_entry hk hkc hkt hvt

/-- Transport of a per-line parsing relation through mapLast. -/
theorem forall2_mapLast {P : Str → (Str × Str) → Prop} {f : Str → Str} :
    ∀ {l : List Str} {es : List (Str × Str)},
      List.Forall₂ (fun a e => P a e ∧ P (f a) e) l es →
      List.Forall₂ P (mapLast f l) es := by
  intro l
  induction l with
  | nil =>
    intro es h
    cases h
    exact List.Forall₂.nil
  | cons a l ih =>
    intro es h
    cases h with
    | cons ha ht =>
      cases l with
      | nil =>
        cases ht
        exact List.Forall₂.cons ha.2 List.Forall₂.nil
      | cons b l' =>
        exact List.Forall₂.cons ha.1 (ih ht)

/-- Each line of the serialized header (with the trailing trim applied to the
    last one) parses back to its property. -/
theorem forall2_entry (props : List (Str × Str))
    (hcond : ∀ e ∈ props,
      e.1 ≠ [] ∧ (∀ c ∈ e.1, c ≠ ':') ∧ trimStr e.1 = e.1 ∧ trimStr e.2 = e.2) :
    List.Forall₂ (fun l e => parsePropLine l = some e)
      (mapLast dropTrailWS (props.map entryLine)) props := by
  apply forall2_mapLast
  induction props with
  | nil => exact List.Forall₂.nil
  | cons e es ih =>
    obtain ⟨hk, hkc, hkt, hvt⟩ := hcond e (List.mem_cons_self _ _)
    refine List.Forall₂.cons ⟨?_, ?_⟩ (ih (fun e' he' => hcond e' (List.mem_cons_of_mem _ he')))
    · have := parsePropLine_entry hk hkc hkt hvt
      simpa using this
    · have := parsePropLine_entry_trail hk hkc hkt hvt
      simpa using this

/-- The property fold appends each freshly keyed entry in order. -/
theorem buildProps_go {lines : List Str} {props : List (Str × Str)}
    (h : List.Forall₂ (fun l e => parsePropLine l = some e) lines props) :
    ∀ acc, props.Pairwise (fun a b => a.1 ≠ b.1) →
      (∀ e ∈ props, lookupKey acc e.1 = none) →
      List.foldl propStep acc lines = acc ++ props := by
  induction h with
  | nil =>
    intro acc _ _
    simp
  | @cons l e lines' props' hl htail ih =>
    intro acc hkeys hdisj
    obtain ⟨k, v⟩ := e
    rw [List.foldl_cons]
    have hstep : propStep acc l = acc ++ [(k, v)] := by
      unfold propStep
      rw [hl]
      show objSet acc k v = acc ++ [(k, v)]
      exact objSet_of_none (hdisj (k, v) (List.mem_cons_self _ _))
    rw [hstep, ih (acc ++ [(k, v)]) (List.pairwise_cons.mp hkeys).2 ?hdisj2]
    · simp
    case hdisj2 =>
      intro e' he'
      rw [lookupKey_append (hdisj e' (List.mem_cons_of_mem _ he'))]
      have hne : k ≠ e'.1 := (List.pairwise_cons.mp hkeys).1 e' he'
      rw [lookupKey_cons, if_neg hne]
      rfl

/-- buildProps recovers distinct-keyed properties from correctly parsing
    lines. -/
theorem buildProps_eq {lines : List Str} {props : List (Str × Str)}
    (h : List.Forall₂ (fun l e => parsePropLine l = some e) lines props)
    (hkeys : props.Pairwise (fun a b => a.1 ≠ b.1)) :
    buildProps lines = props := by
  have hgo := buildProps_go h [] hkeys (fun e he => rfl)
  simpa [buildProps] using hgo

/-- A colon within the first three characters defeats the triple-dash
    prefix. -/
theorem dash_prefix_false {k w : Str} (hk : strStarts ("---".data) k = false) :
    strStarts ("---".data) (k ++ ':' :: w) = false := by
  match k with
  | [] => simp [strStarts]
  | [a] => simp [strStarts]
  | [a, b] => simp [strStarts]
  | a :: b :: c :: k' =>
    simp only [List.cons_append]
    simp only [show ("---".data : Str) = '-' :: '-' :: '-' :: [] from rfl,
      strStarts] at hk ⊢
    simpa using hk

/-- A shared head character peels off a prefix test. -/
theorem strStarts_cons_same (c : Char) (p s : Str) :
    strStarts (c :: p) (c :: s) = strStarts p s := by
  simp [strStarts]

/-- The closing pattern occurs nowhere inside a join of newline-free lines of
    length at least three that do not start with three dashes. -/
theorem no_early_delim (lines : List Str) (X : Str)
    (hl : ∀ m ∈ lines, (∀ c ∈ m, c ≠ '\n') ∧ 3 ≤ m.length ∧
      strStarts ("---".data) m = false) :
    ∀ j, j < (joinLines lines).length →
      strStarts ("\n---".data) ((joinLines lines ++ X).drop j) = false := by
  induction lines generalizing X with
  | nil =>
    intro j hj
    simp [joinLines] at hj
  | cons l lines ih =>
    intro j hj
    cases lines with
    | nil =>
      rw [show joinLines [l] = l from rfl] at hj ⊢
      obtain ⟨c, w, hw, hcmem⟩ := drop_append_mem X hj
      rw [hw, show ("\n---".data : Str) = '\n' :: "---".data from rfl]
      exact strStarts_head_false (Ne.symm ((hl l (List.mem_cons_self _ _)).1 c hcmem))
    | cons l2 ls =>
      rw [joinLines_cons_ne (by simp)] at hj ⊢
      rw [List.append_assoc, List.cons_append]
      by_cases hjl : j < l.length
      · obtain ⟨c, w, hw, hcmem⟩ :=
          drop_append_mem ('\n' :: (joinLines (l2 :: ls) ++ X)) hjl
        rw [hw, show ("\n---".data : Str) = '\n' :: "---".data from rfl]
        exact strStarts_head_false
          (Ne.symm ((hl l (List.mem_cons_self _ _)).1 c hcmem))
      · by_cases hje : j = l.length
        · subst hje
          rw [List.drop_left, show ("\n---".data : Str) = '\n' :: "---".data from rfl,
            strStarts_cons_same]
          obtain ⟨Y, hY⟩ := joinLines_decomp l2 ls
          rw [hY, List.append_assoc]
          obtain ⟨hnl2, hlen2, hd2⟩ :=
            hl l2 (List.mem_cons_of_mem _ (List.mem_cons_self _ _))
          rw [strStarts_append_left (by
            rw [show ("---".data : Str).length = 3 from rfl]
            exact hlen2)]
          exact hd2
        · have hj2 : j - (l.length + 1) < (joinLines (l2 :: ls)).length := by
            simp only [List.length_append, List.length_cons] at hj
            omega
          have hdropped : (l ++ '\n' :: (joinLines (l2 :: ls) ++ X)).drop j =
              (joinLines (l2 :: ls) ++ X).drop (j - (l.length + 1)) := by
            conv_lhs => rw [show j = l.length + (j - (l.length + 1) + 1) by omega]
            rw [List.drop_append, List.drop_succ_cons]
          rw [hdropped]
          exact ih X (fun m hm => hl m (List.mem_cons_of_mem _ hm)) _ hj2

/-- C5 counterexample: a value containing a newline has a newline-free and
    colon-free key, yet the round trip loses the part of the value after the
    newline (the stray line has no colon and is dropped by the parser). -/
theorem frontmatter_roundtrip_cex :
    parseFrontMatter (serialize [("k".data, "a\nb".data)] ++ []) =
      ⟨[("k".data, "a".data)], []⟩ ∧
    ([("k".data, "a".data)] : List (Str × Str)) ≠ [("k".data, "a\nb".data)] := by
  decide

/-- C5 amended: the round trip parseFrontMatter (serialize props ++ body) =
    (props, body) holds for every body and every property list with pairwise
    distinct keys in which every key is nonempty, trim-stable, free of colons
    and newlines and does not start with three dashes, and every value is
    trim-stable and free of newlines. -/
theorem frontmatter_roundtrip (props : List (Str × Str)) (body : Str)
    (hkeys : props.Pairwise (fun a b => a.1 ≠ b.1))
    (hcond : ∀ e ∈ props,
      e.1 ≠ [] ∧ (∀ c ∈ e.1, c ≠ ':') ∧ (∀ c ∈ e.1, c ≠ '\n') ∧ trimStr e.1 = e.1 ∧
      strStarts ("---".data) e.1 = false ∧ (∀ c ∈ e.2, c ≠ '\n') ∧ trimStr e.2 = e.2) :
    parseFrontMatter (serialize props ++ body) = ⟨props, body⟩ := by
  have hshape : serialize props ++ body =
      "---\n".data ++
        (joinLines (props.map entryLine) ++ ("\n---".data ++ ('\n' :: body))) := by
    unfold serialize
    rw [show ("\n---\n".data : Str) = "\n---".data ++ ['\n'] from rfl]
    simp
  have hlineprops : ∀ m ∈ props.map entryLine,
      (∀ c ∈ m, c ≠ '\n') ∧ 3 ≤ m.length ∧ strStarts ("---".data) m = false := by
    intro m hm
    obtain ⟨e, he, rfl⟩ := List.mem_map.mp hm
    obtain ⟨hk0, hkc, hkn, hkt, hkd, hvn, hvt⟩ := hcond e he
    refine ⟨?_, ?_, ?_⟩
    · intro c hc
      unfold entryLine at hc
      rcases List.mem_append.mp hc with hc | hc
      · rcases List.mem_append.mp hc with hc | hc
        · exact hkn c hc
        · rcases (by simpa using hc : c = ':' ∨ c = ' ') with rfl | rfl <;> decide
      · exact hvn c hc
    · have h1 : 1 ≤ e.1.length := List.length_pos.mpr hk0
      unfold entryLine
      simp only [List.length_append, show (": ".data : Str).length = 2 from rfl]
      omega
    · rw [show entryLine e = e.1 ++ ':' :: (' ' :: e.2) by unfold entryLine; simp]
      exact dash_prefix_false hkd
  rw [hshape,
    parseFrontMatter_decomp _ _
      (no_early_delim (props.map entryLine) ("\n---".data ++ ('\n' :: body))
        hlineprops)]
  cases props with
  | nil => rfl
  | cons e0 es =>
    obtain ⟨hk0, hkc0, hkn0, hkt0, hkd0, hvn0, hvt0⟩ :=
      hcond e0 (List.mem_cons_self _ _)
    obtain ⟨c, k', hk'eq, hcws⟩ := head_not_ws hkt0 hk0
    have hL0 : entryLine e0 = c :: (k' ++ ": ".data ++ e0.2) := by
      unfold entryLine
      rw [hk'eq]
      simp
    have hheads : ∀ m ∈ es.map entryLine,
        ∃ c2 Y2, m = c2 :: Y2 ∧ isWS c2 = false := by
      intro m hm
      obtain ⟨e, he, rfl⟩ := List.mem_map.mp hm
      obtain ⟨hk0e, _, _, hkte, _, _, _⟩ := hcond e (List.mem_cons_of_mem _ he)
      obtain ⟨c2, k2, hke, hc2⟩ := head_not_ws hkte hk0e
      refine ⟨c2, k2 ++ ": ".data ++ e.2, ?_, hc2⟩
      unfold entryLine
      rw [hke]
      simp
    rw [show (e0 :: es).map entryLine = entryLine e0 :: es.map entryLine from rfl,
      trimStr_join (entryLine e0) (es.map entryLine) c _ hL0 hcws hheads,
      splitRuns_join _ (mapLast_cons_ne _ _ _) ?hsplit]
    case hsplit =>
      intro m hm
      rcases mem_mapLast hm with hmem | ⟨m0, hm0, rfl⟩
      · have hp := hlineprops m
          (by rw [show (e0 :: es).map entryLine = entryLine e0 :: es.map entryLine
            from rfl]; exact hmem)
        exact ⟨List.ne_nil_of_length_pos (by have := hp.2.1; omega), hp.1⟩
      · constructor
        · rcases List.mem_cons.mp hm0 with rfl | hm0'
          · rw [hL0]
            exact dropTrailWS_cons_ne_nil hcws
          · obtain ⟨c2, Y2, hm2, hc2⟩ := hheads m0 hm0'
            rw [hm2]
            exact dropTrailWS_cons_ne_nil hc2
        · intro ch hch
          have hp := hlineprops m0
            (by rw [show (e0 :: es).map entryLine = entryLine e0 :: es.map entryLine
              from rfl]; exact hm0)
          exact hp.1 ch (mem_dropTrailWS hch)
    have hf := forall2_entry (e0 :: es)
      (fun e he => by
        obtain ⟨h1, h2, _, h4, _, _, h7⟩ := hcond e he
        exact ⟨h1, h2, h4, h7⟩)
    rw [List.map_cons] at hf
    rw [buildProps_eq hf hkeys]
    rfl

/-- Witness for C5: the round trip at a concrete one-property mapping. -/
theorem frontmatter_roundtrip_witness :
    parseFrontMatter (serialize [("priority".data, "high".data)] ++ "Hi".data) =
      ⟨[("priority".data, "high".data)], "Hi".data⟩ :=
  frontmatter_roundtrip [("priority".data, "high".data)] ("Hi".data)
    (by decide) (by decide)

end LiteNotes
